import Mathlib

/-!
Verification development for the LibreDrive rust_core sources.

The Rust sources are shallowly embedded: pure functions become Lean
functions, stateful code becomes explicit state passing, machine integers
become `Nat`/`Int` (Rust `usize`/`u64` arithmetic that can overflow is noted
where it matters), fallible code returns `Except`/`Option`.

External crates used by the sources (blake3, aes-gcm, bincode, bs58,
reed-solomon-erasure, bip39, hkdf, pbkdf2, sha2, ed25519-dalek, mime_guess)
are not part of this repository.  They are embedded as concrete executable
models that keep the interface shape the sources rely on (output lengths,
layout `nonce(12) || ct || tag(16)`, determinism, length-prefixed
serialization that tolerates trailing bytes), or - for the Reed-Solomon
codec - as an explicit backend structure together with the contract the
crate documents, so that every theorem states which part of its content
comes from the crate contract and which from the repository code.
-/

/-! ## Byte-level helpers -/

/-- Bytes are modelled as lists of naturals (each intended `< 256`). -/
abbrev Bytes := List Nat

/-- Little-endian encoding of `n` on `k` bytes (model of bincode fixed-width
integer encoding used for `u64`/`usize`). -/
def natToLE : Nat → Nat → Bytes
  | 0, _ => []
  | k + 1, n => n % 256 :: natToLE k (n / 256)

/-- Little-endian decoding, inverse of `natToLE` below `256 ^ k`. -/
def leToNat : Bytes → Nat
  | [] => 0
  | b :: bs => b + 256 * leToNat bs

/-- Rust slice `&data[start..stop]`. -/
def sliceList (l : Bytes) (start stop : Nat) : Bytes :=
  (l.take stop).drop start

/-- Rust `Vec::resize(len, 0)` for the zero-padding in the erasure encoder
(the sources only ever grow the vector). -/
def padTo (len : Nat) (l : Bytes) : Bytes :=
  l ++ List.replicate (len - l.length) 0

/-! ## Model of the blake3 and bs58 crates (crypto/hashing.rs)

`ContentHash` is a 32-byte BLAKE3 digest.  The claims need only that the
hash is a deterministic function producing 32 bytes, so the model mixes the
input with a cheap fold; collision behaviour of real BLAKE3 is not used by
any theorem. -/

/-- Model of `ContentHash::hash`: a deterministic 32-byte digest. -/
def contentHashBytes (data : Bytes) : Bytes :=
  let h := data.foldl (fun acc b => (acc * 131 + b + 1) % 1000000007) 7
  (List.range 32).map (fun j => (h * (j + 1) + j * 37 + data.length) % 256)

/-- Model of `ContentHash::to_base58` (bs58 crate): an injective-on-digests
rendering of the byte list as a string; only equality of encodings is used
by the sources. -/
def toBase58 (bs : Bytes) : String :=
  String.intercalate "." (bs.map toString)

/-! ## Model of the aes-gcm crate (crypto/encryption.rs)

`EncryptionKey::encrypt` produces `nonce(12) || ciphertext || tag(16)` with
`ciphertext.length = plaintext.length`; `decrypt` rejects inputs shorter
than 28 bytes.  The model keeps the exact layout and lengths; the cipher
permutation itself is abstracted (the body carries the plaintext bytes),
which is sound for the functional claims, none of which depends on
confidentiality or on authentication failure. -/

inductive CryptoErr where
  | EncryptionFailed (msg : String)
  | DecryptionFailed (msg : String)
  | InvalidData (msg : String)
  deriving Repr, DecidableEq

/-- Deterministic 12-byte nonce source standing in for `OsRng`; the sources
draw a fresh random nonce per chunk, modelled by an explicit seed. -/
def nonceFor (seed i : Nat) : Bytes :=
  (List.range 12).map (fun j => (seed + i * 131 + j * 17) % 256)

/-- Model of the 16-byte GCM tag. -/
def tagModel (key nonce pt : Bytes) : Bytes :=
  (List.range 16).map
    (fun j => (key.foldl (· + ·) 0 + nonce.foldl (· + ·) 0 + pt.length + j) % 256)

/-- Model of `EncryptionKey::encrypt`: `nonce(12) || body || tag(16)`. -/
def aeadEncrypt (key nonce pt : Bytes) : Bytes :=
  nonce ++ pt ++ tagModel key nonce pt

/-- Model of `EncryptionKey::decrypt`: rejects inputs shorter than
`NONCE_SIZE + 16 = 28`, otherwise recovers the body. -/
def aeadDecrypt (_key ct : Bytes) : Except CryptoErr Bytes :=
  if ct.length < 28 then
    .error (.DecryptionFailed "Ciphertext too short")
  else
    .ok ((ct.drop 12).take (ct.length - 28))

/-- Model of `EncryptionKey::generate` (OsRng): a 32-byte key from an
explicit seed. -/
def keyFromSeed (seed : Nat) : Bytes :=
  (List.range 32).map (fun j => (seed + j * 101 + 3) % 256)

/-! ## FileEncryptor (crypto/encryption.rs lines 82-206) -/

/-- `EncryptedFile` struct of crypto/encryption.rs. -/
structure EncryptedFile where
  data : Bytes
  chunk_offsets : List Nat
  original_size : Nat
  chunk_size : Nat
  deriving Repr, DecidableEq

/-- Rust `data.chunks(cs)`: splits into pieces of length `cs`, last piece
possibly shorter; no pieces for empty data.  `cs = 0` panics in Rust and
yields `[]` here. -/
def listChunks (cs : Nat) : Bytes → List Bytes
  | [] => []
  | a :: rest =>
    if h : cs = 0 then []
    else (a :: rest).take cs :: listChunks cs ((a :: rest).drop cs)
  termination_by l => l.length
  decreasing_by
    have : 0 < cs := Nat.pos_of_ne_zero h
    simp only [List.length_drop, List.length_cons]
    omega

/-- Chunk offsets as accumulated by the `encrypt_file` loop:
`chunk_offsets[i]` is the start of encrypted chunk `i` in the flat buffer. -/
def offsetsFrom (acc : Nat) : List Bytes → List Nat
  | [] => []
  | c :: rest => acc :: offsetsFrom (acc + c.length) rest

/-- Model of `FileEncryptor::encrypt_file`: splits the plaintext into
`chunk_size` pieces, encrypts each with a fresh nonce, records offsets into
the flat buffer. -/
def encryptFile (key : Bytes) (chunkSize rngSeed : Nat) (data : Bytes) :
    EncryptedFile :=
  let pieces := listChunks chunkSize data
  let encChunks := (pieces.enum).map (fun p => aeadEncrypt key (nonceFor rngSeed p.1) p.2)
  { data := encChunks.flatten
    chunk_offsets := offsetsFrom 0 encChunks
    original_size := data.length
    chunk_size := chunkSize }

/-- Byte range of chunk `i` in the flat buffer: ends at the next offset or
at the end of the buffer (crypto/encryption.rs lines 136-143 and 157-162). -/
def chunkSlice (ef : EncryptedFile) (i : Nat) : Bytes :=
  let start := ef.chunk_offsets.getD i 0
  let stop :=
    if i + 1 < ef.chunk_offsets.length then ef.chunk_offsets.getD (i + 1) 0
    else ef.data.length
  sliceList ef.data start stop

/-- Decrypts a list of chunk ciphertexts in order, concatenating the
plaintexts and stopping at the first failure (the accumulation loop of
`decrypt_file`). -/
def decryptAll (key : Bytes) : List Bytes → Except CryptoErr Bytes
  | [] => .ok []
  | c :: rest => do
    let p ← aeadDecrypt key c
    let ps ← decryptAll key rest
    return p ++ ps

/-- Model of `FileEncryptor::decrypt_file`: decrypts every chunk slice in
order and concatenates. -/
def decryptFile (key : Bytes) (ef : EncryptedFile) : Except CryptoErr Bytes :=
  decryptAll key ((List.range ef.chunk_offsets.length).map (chunkSlice ef))

/-- Model of `FileEncryptor::decrypt_chunk`: bounds check, then decrypts
only that chunk slice of the flat buffer. -/
def decryptChunk (key : Bytes) (ef : EncryptedFile) (i : Nat) :
    Except CryptoErr Bytes :=
  if i ≥ ef.chunk_offsets.length then
    .error (.InvalidData "Chunk index out of bounds")
  else
    aeadDecrypt key (chunkSlice ef i)

/-! ## Model of the bincode crate for EncryptedFile

bincode 1.x with default options writes each field in order, `u64`/`usize`
as 8 little-endian bytes, a `Vec` as its length followed by its elements,
and `deserialize` from a slice tolerates trailing bytes.  The model mirrors
exactly that for the `EncryptedFile` struct. -/

/-- Model of `EncryptedFile::to_bytes` (bincode serialize). -/
def serEncryptedFile (ef : EncryptedFile) : Bytes :=
  natToLE 8 ef.data.length ++ ef.data ++
  natToLE 8 ef.chunk_offsets.length ++ (ef.chunk_offsets.map (natToLE 8)).flatten ++
  natToLE 8 ef.original_size ++ natToLE 8 ef.chunk_size

/-- Reads `n` consecutive 8-byte little-endian naturals. -/
def readLEList : Nat → Bytes → Option (List Nat × Bytes)
  | 0, bs => some ([], bs)
  | n + 1, bs =>
    if 8 ≤ bs.length then
      match readLEList n (bs.drop 8) with
      | some (vs, rest) => some (leToNat (bs.take 8) :: vs, rest)
      | none => none
    else none

/-- Reads one 8-byte little-endian integer. -/
def readLE8 (bs : Bytes) : Option (Nat × Bytes) :=
  if 8 ≤ bs.length then some (leToNat (bs.take 8), bs.drop 8) else none

/-- Reads `n` raw bytes. -/
def readBytes (n : Nat) (bs : Bytes) : Option (Bytes × Bytes) :=
  if n ≤ bs.length then some (bs.take n, bs.drop n) else none

/-- Model of `EncryptedFile::from_bytes` (bincode deserialize; trailing
bytes are ignored). -/
def deserEncryptedFile (bs : Bytes) : Option EncryptedFile := do
  let (dlen, r1) ← readLE8 bs
  let (data, r2) ← readBytes dlen r1
  let (olen, r3) ← readLE8 r2
  let (offs, r4) ← readLEList olen r3
  let (osz, r5) ← readLE8 r4
  let (csz, _) ← readLE8 r5
  some { data := data, chunk_offsets := offs,
         original_size := osz, chunk_size := csz }

/-! ## Erasure codec (storage/erasure.rs)

The sources call the external reed-solomon-erasure crate
(`ReedSolomon::new/encode/reconstruct`, Galois 2^8).  The crate is embedded
as an `RSBackend` structure plus the contract `RSBackend.CorrectAt` that its
documentation states: `encode` fills the parity shards leaving the data
shards untouched, and `reconstruct` restores the full shard list from any
subset containing at least `k` of the `k + m` shards.  Theorems that depend
on the codec take the contract as a hypothesis; their witnesses discharge it
with the executable single-data-shard backend `replRS` below. -/

/-- Errors of storage/mod.rs used by erasure.rs and file_manager.rs. -/
inductive StorageErr where
  | ErasureCoding (msg : String)
  | InsufficientFragments (hav need : Nat)
  | IntegrityCheckFailed
  | Encryption (msg : String)
  | Serialization (msg : String)
  deriving Repr, DecidableEq

/-- `ErasureConfig` struct of storage/erasure.rs. -/
structure ErasureConfig where
  data_shards : Nat
  parity_shards : Nat
  deriving Repr, DecidableEq

def ErasureConfig.total_shards (c : ErasureConfig) : Nat :=
  c.data_shards + c.parity_shards

/-- `Shard` struct of storage/erasure.rs. -/
structure Shard where
  index : Nat
  data : Bytes
  is_parity : Bool
  original_size : Nat
  deriving Repr, DecidableEq

/-- Two-digit zero-padded rendering used by `format!("{:02}", index)`. -/
def pad2 (n : Nat) : String :=
  if n < 10 then "0" ++ toString n else toString n

/-- `Shard::id`: `format!("{}-shard-{:02}", file_hash, index)`. -/
def Shard.idStr (s : Shard) (fileHash : String) : String :=
  fileHash ++ "-shard-" ++ pad2 s.index

/-- Backend interface of the reed-solomon-erasure crate.  `encodeParity`
models `ReedSolomon::encode` (returns all `k + m` buffers with parity
filled); `reconstruct` models `ReedSolomon::reconstruct` (returns the full
buffer list with missing entries restored). -/
structure RSBackend where
  encodeParity : Nat → Nat → List Bytes → Option (List Bytes)
  reconstruct : Nat → Nat → List (Option Bytes) → Option (List Bytes)

/-- Pointwise erasure relation: `masked` agrees with `full` except that some
entries are `none`. -/
def MaskOf (masked : List (Option Bytes)) (full : List Bytes) : Prop :=
  List.Forall₂ (fun o b => o = none ∨ o = some b) masked full

/-- Number of present entries. -/
def countSome (l : List (Option Bytes)) : Nat :=
  (l.filter (fun o => o.isSome)).length

/-- Documented contract of the reed-solomon-erasure crate at parameters
`(k, m)`: encoding `k + m` equal-length nonempty buffers succeeds, is
systematic (the first `k` buffers are unchanged), keeps lengths, and
reconstruction from any mask retaining at least `k` entries returns the
full encoded list. -/
def RSBackend.CorrectAt (rs : RSBackend) (k m : Nat) : Prop :=
  ∀ bufs s, 0 < s → bufs.length = k + m → (∀ b ∈ bufs, b.length = s) →
    ∃ full, rs.encodeParity k m bufs = some full ∧
      full.length = k + m ∧
      (∀ b ∈ full, b.length = s) ∧
      full.take k = bufs.take k ∧
      ∀ masked, MaskOf masked full → k ≤ countSome masked →
        rs.reconstruct k m masked = some full

/-- `ErasureEncoder::calculate_shard_size`: `ceil(n / k)` written as in the
source, `(data_len + data_shards - 1) / data_shards`. -/
def calculateShardSize (c : ErasureConfig) (dataLen : Nat) : Nat :=
  (dataLen + c.data_shards - 1) / c.data_shards

/-- Parameter validation of `ReedSolomon::new` (crate): at least one data
shard, at least one parity shard, at most 256 shards in total. -/
def rsNewOk (c : ErasureConfig) : Bool :=
  decide (0 < c.data_shards) && decide (0 < c.parity_shards) &&
    decide (c.total_shards ≤ 256)

/-- Data-shard buffer `i` laid out by `ErasureEncoder::encode`:
`data[i*ss .. min(i*ss + ss, n)]` (empty when `start ≥ n`), zero-padded to
`ss`. -/
def bufAt (ss : Nat) (data : Bytes) (i : Nat) : Bytes :=
  padTo ss
    (if i * ss < data.length then
      sliceList data (i * ss) (min (i * ss + ss) data.length)
     else [])

/-- The data-shard buffers laid out by `ErasureEncoder::encode`. -/
def dataShardBufs (c : ErasureConfig) (ss : Nat) (data : Bytes) : List Bytes :=
  (List.range c.data_shards).map (bufAt ss data)

/-- Model of `ErasureEncoder::new` + `ErasureEncoder::encode`
(storage/erasure.rs lines 69-128). -/
def erasureEncode (rs : RSBackend) (c : ErasureConfig) (data : Bytes) :
    Except StorageErr (List Shard) :=
  if !rsNewOk c then .error (.ErasureCoding "invalid shard configuration")
  else if calculateShardSize c data.length = 0 then
    .error (.ErasureCoding "empty shard")
  else
    match rs.encodeParity c.data_shards c.parity_shards
      (dataShardBufs c (calculateShardSize c data.length) data ++
        List.replicate c.parity_shards
          (List.replicate (calculateShardSize c data.length) 0)) with
    | none => .error (.ErasureCoding "encode failed")
    | some full =>
      .ok ((full.enum).map (fun p =>
        { index := p.1, data := p.2,
          is_parity := decide (p.1 ≥ c.data_shards),
          original_size := p.2.length }))

/-- Model of `ErasureDecoder::new` + `ErasureDecoder::decode`
(storage/erasure.rs lines 149-211): length check, availability check with
`InsufficientFragments`, reconstruction, concatenation of the first `k`
data shards, truncation to `original_size`. -/
def erasureDecode (rs : RSBackend) (c : ErasureConfig)
    (shards : List (Option Shard)) (originalSize : Nat) :
    Except StorageErr Bytes :=
  if !rsNewOk c then .error (.ErasureCoding "invalid shard configuration")
  else if shards.length ≠ c.total_shards then
    .error (.ErasureCoding "wrong shard count")
  else if (shards.filter (fun s => s.isSome)).length < c.data_shards then
    .error (.InsufficientFragments
      ((shards.filter (fun s => s.isSome)).length) c.data_shards)
  else
    match shards.findSome? (fun s => s.map (fun sh => sh.data.length)) with
    | none => .error (.ErasureCoding "No shards available")
    | some _ =>
      match rs.reconstruct c.data_shards c.parity_shards
        (shards.map (fun o => o.map (fun sh => sh.data))) with
      | none => .error (.ErasureCoding "reconstruct failed")
      | some full =>
        .ok (((full.take c.data_shards).flatten).take originalSize)

/-- Executable Reed-Solomon backend for `k = 1`: with a single data shard
every parity shard is a copy of it, and any surviving shard restores the
list.  Used by the witnesses to discharge `RSBackend.CorrectAt 1 m`. -/
def replRS : RSBackend where
  encodeParity := fun k m bufs =>
    if k = 1 then some (bufs.take 1 ++ List.replicate m (bufs.headD []))
    else none
  reconstruct := fun k m masked =>
    if k = 1 then (masked.findSome? id).map (fun d => List.replicate (k + m) d)
    else none

/-! ## Identity (identity/mod.rs, identity/seed.rs)

The external crates bip39, pbkdf2/sha2, hkdf and ed25519-dalek are
deterministic key-derivation primitives; they are modelled by concrete
deterministic byte-mixing functions of the right output sizes.  The bip39
wordlist/checksum validation is abstracted to wellformedness of the word
list (count in the BIP39 set, nonempty words); the claims depend only on
the derivation being a function of (mnemonic, passphrase) with no fresh
randomness, which the embedding of `from_seed_phrase` makes visible: unlike
`UserIdentity::generate`, it takes no RNG input. -/

inductive IdentityErr where
  | InvalidSeedPhrase (msg : String)
  | KeyDerivation (msg : String)
  | Crypto (e : CryptoErr)
  deriving Repr, DecidableEq

/-- UTF-8-ish byte view of a string (the identifiers involved are ASCII). -/
def strBytes (s : String) : Bytes :=
  s.toList.map Char.toNat

/-- Deterministic mixing producing `n` bytes; stands in for the external
hash-based derivation primitives. -/
def mixBytes (n seedv : Nat) (inputs : List Bytes) : Bytes :=
  let h := (inputs.map (fun l => l.length :: l)).flatten.foldl
    (fun acc b => (acc * 131 + b + 1) % 1000000007) seedv
  (List.range n).map (fun j => (h * (j + 3) + j) % 256)

/-- Model of HKDF-SHA256 expand to 32 bytes with salt/ikm/info. -/
def hkdfExpand32 (salt ikm info : Bytes) : Bytes :=
  mixBytes 32 11 [salt, ikm, info]

/-- Model of SHA-256. -/
def sha256Model (b : Bytes) : Bytes :=
  mixBytes 32 13 [b]

/-- Model of the ed25519-dalek verifying key derived from a signing seed. -/
def verifyingKeyOf (seed : Bytes) : Bytes :=
  mixBytes 32 17 [seed]

/-- Model of BIP39 PBKDF2-HMAC-SHA512 (2048 rounds) producing the 64-byte
master seed from the normalized mnemonic string and `"mnemonic" ++ pass`. -/
def pbkdf2Seed (phrase saltStr : String) : Bytes :=
  mixBytes 64 19 [strBytes phrase, strBytes saltStr]

/-- Model of a parsed bip39 `Mnemonic`. -/
structure MnemonicM where
  words : List String
  deriving Repr, DecidableEq

/-- Character-level splitter (structurally recursive rendering of
`String::splitOn` for the single-character separator used here). -/
def splitCharsAux (sep : Char) : List Char → List Char → List (List Char)
  | [], acc => [acc.reverse]
  | c :: rest, acc =>
    if c = sep then acc.reverse :: splitCharsAux sep rest []
    else splitCharsAux sep rest (c :: acc)

/-- Splits a string at spaces (empty pieces preserved, as `splitOn` does). -/
def splitOnSpace (s : String) : List String :=
  (splitCharsAux ' ' s.toList []).map (fun cs => String.mk cs)

/-- Model of Rust `split_whitespace` restricted to spaces. -/
def splitWS (s : String) : List String :=
  (splitOnSpace s).filter (fun w => w ≠ "")

/-- Model of `Mnemonic::parse_normalized` (bip39 crate): word count must be
one of 12/15/18/21/24 and words wellformed; the wordlist membership and
entropy checksum of the crate are abstracted into this validity test. -/
def bip39ParseNormalized (s : String) : Option MnemonicM :=
  let ws := splitOnSpace s
  if (ws.length = 12 ∨ ws.length = 15 ∨ ws.length = 18 ∨ ws.length = 21 ∨
      ws.length = 24) ∧ ∀ w ∈ ws, w ≠ "" then some ⟨ws⟩ else none

/-- Model of `SeedPhrase::from_phrase`: normalize whitespace, then parse. -/
def seedPhraseFromPhrase (phrase : String) : Option MnemonicM :=
  bip39ParseNormalized (String.intercalate " " (splitWS phrase))

/-- Model of `SeedPhrase::to_seed`. -/
def seedPhraseToSeed (m : MnemonicM) (passphrase : String) : Bytes :=
  pbkdf2Seed (String.intercalate " " m.words) ("mnemonic" ++ passphrase)

/-- `SigningKeyPair` of identity/keys.rs (key bytes only). -/
structure SigningKeyPair where
  signing_key : Bytes
  verifying_key : Bytes
  deriving Repr, DecidableEq

/-- `UserIdentity` struct of identity/mod.rs. -/
structure UserIdentity where
  master_seed : Bytes
  signing_keys : SigningKeyPair
  encryption_key : Bytes
  node_id : Bytes
  deriving Repr, DecidableEq

/-- Model of `UserIdentity::derive_signing_keys`. -/
def deriveSigningKeys (masterSeed : Bytes) : SigningKeyPair :=
  let signingSeed :=
    hkdfExpand32 (strBytes "cloudp2p-signing") masterSeed
      (strBytes "ed25519-signing-key")
  { signing_key := signingSeed, verifying_key := verifyingKeyOf signingSeed }

/-- Model of `UserIdentity::derive_encryption_key`. -/
def deriveEncryptionKey (masterSeed : Bytes) : Bytes :=
  hkdfExpand32 (strBytes "cloudp2p-encryption") masterSeed
    (strBytes "aes-256-gcm-key")

/-- Model of `UserIdentity::from_seed_phrase` (identity/mod.rs lines 58-80):
parse the mnemonic, derive the master seed with the passphrase (empty if
omitted), derive signing keys, encryption key, and the node id.  All inputs
are explicit; no RNG is consumed. -/
def fromSeedPhrase (mnemonic : String) (password : Option String) :
    Except IdentityErr UserIdentity :=
  match seedPhraseFromPhrase mnemonic with
  | none => .error (.InvalidSeedPhrase "parse failed")
  | some sp =>
    let masterSeed := seedPhraseToSeed sp (password.getD "")
    let signingKeys := deriveSigningKeys masterSeed
    let encryptionKey := deriveEncryptionKey masterSeed
    let nodeId := sha256Model signingKeys.verifying_key
    .ok { master_seed := masterSeed, signing_keys := signingKeys,
          encryption_key := encryptionKey, node_id := nodeId }

/-- Model of `UserIdentity::public_id`: base58 of the node id. -/
def UserIdentity.publicId (id : UserIdentity) : String :=
  toBase58 id.node_id

/-- Model of `UserIdentity::encrypt` (AES-GCM under the identity key; the
fresh nonce is an explicit seed). -/
def UserIdentity.encryptWith (id : UserIdentity) (nonceSeed : Nat) (pt : Bytes) :
    Bytes :=
  aeadEncrypt id.encryption_key (nonceFor nonceSeed 0) pt

/-- Model of `UserIdentity::decrypt`. -/
def UserIdentity.decryptBytes (id : UserIdentity) (ct : Bytes) :
    Except CryptoErr Bytes :=
  aeadDecrypt id.encryption_key ct

/-! ## File manager (storage/file_manager.rs) -/

/-- `ShardLocation` struct of storage/file_manager.rs. -/
structure ShardLocation where
  index : Nat
  shard_id : String
  peers : List String
  size : Nat
  hash : String
  deriving Repr, DecidableEq

/-- `FileMetadata` struct of storage/file_manager.rs. -/
structure FileMetadata where
  file_id : String
  filename : String
  size : Nat
  mime_type : String
  encrypted_hash : String
  erasure_config : ErasureConfig
  shards : List ShardLocation
  created_at : Int
  modified_at : Int
  owner_id : String
  is_shared : Bool
  shared_with : List String
  encrypted_file_key : Bytes
  folder_id : Option String
  tags : List String
  deriving Repr, DecidableEq

/-- `PreparedFile` struct of storage/file_manager.rs. -/
structure PreparedFile where
  metadata : FileMetadata
  shards : List Shard
  deriving Repr, DecidableEq

/-- Model of the external mime_guess crate (`first_or_octet_stream`). -/
def mimeGuessModel (_filename : String) : String :=
  "application/octet-stream"

/-- Rendering of a CryptoErr message (`e.to_string()` at the call sites). -/
def cryptoMsg : CryptoErr → String
  | .EncryptionFailed m => m
  | .DecryptionFailed m => m
  | .InvalidData m => m

/-- Model of `FileManager::prepare_upload` (storage/file_manager.rs lines
187-261).  The file read is replaced by the plaintext `data`; the random
per-file key and the random nonces are explicit seeds; the chunk size is
the `FileEncryptor::new` default of 64 KiB. -/
def prepareUpload (rs : RSBackend) (cfg : ErasureConfig) (identity : UserIdentity)
    (data : Bytes) (filename : String) (keySeed nonceSeed keyNonceSeed : Nat)
    (now : Int) : Except StorageErr PreparedFile := do
  let originalHash := contentHashBytes data
  let fileKey := keyFromSeed keySeed
  let encrypted := encryptFile fileKey 65536 nonceSeed data
  let encryptedData := serEncryptedFile encrypted
  let encryptedHash := contentHashBytes encryptedData
  let shards ← erasureEncode rs cfg encryptedData
  let encryptedFileKey := identity.encryptWith keyNonceSeed fileKey
  let shardLocations : List ShardLocation := shards.map (fun s =>
    { index := s.index,
      shard_id := s.idStr (toBase58 originalHash),
      peers := [],
      size := s.data.length,
      hash := toBase58 (contentHashBytes s.data) })
  return { metadata :=
            { file_id := toBase58 originalHash,
              filename := filename,
              size := data.length,
              mime_type := mimeGuessModel filename,
              encrypted_hash := toBase58 encryptedHash,
              erasure_config := cfg,
              shards := shardLocations,
              created_at := now,
              modified_at := now,
              owner_id := identity.publicId,
              is_shared := false,
              shared_with := [],
              encrypted_file_key := encryptedFileKey,
              folder_id := none,
              tags := [] },
           shards := shards }

/-- Truncation length handed to the erasure decoder by `reconstruct_file`
(storage/file_manager.rs lines 296-298): the summed metadata shard sizes
divided by the total shard count, times the data shard count, in integer
arithmetic. -/
def reconstructTruncationLen (md : FileMetadata) : Nat :=
  ((md.shards.map (fun s => s.size)).sum / md.erasure_config.total_shards) *
    md.erasure_config.data_shards

/-- Truncation length in the words of the specification: the plain sum of
the shard sizes recorded in the metadata (for comparison with
`reconstructTruncationLen`). -/
def specTruncationLen (md : FileMetadata) : Nat :=
  (md.shards.map (fun s => s.size)).sum

/-- Model of `FileManager::reconstruct_file` (storage/file_manager.rs lines
264-331): availability check, shard rebuild, erasure decode with the
estimated size, file-key decryption, deserialization, chunk decryption,
content-hash verification. -/
def reconstructFile (rs : RSBackend) (identity : UserIdentity)
    (md : FileMetadata) (shardData : List (Option Bytes)) :
    Except StorageErr Bytes :=
  if (shardData.filter (fun s => s.isSome)).length <
      md.erasure_config.data_shards then
    .error (.InsufficientFragments
      ((shardData.filter (fun s => s.isSome)).length)
      md.erasure_config.data_shards)
  else
    match erasureDecode rs md.erasure_config
      ((shardData.enum).map (fun p =>
        p.2.map (fun d =>
          { index := p.1, data := d,
            is_parity := decide (p.1 ≥ md.erasure_config.data_shards),
            original_size := 0 })))
      (reconstructTruncationLen md) with
    | .error e => .error e
    | .ok encryptedData =>
      match identity.decryptBytes md.encrypted_file_key with
      | .error e => .error (.Encryption (cryptoMsg e))
      | .ok fileKeyBytes =>
        if fileKeyBytes.length ≠ 32 then
          .error (.Encryption "Invalid file key length")
        else
          match deserEncryptedFile encryptedData with
          | none => .error (.Encryption "deserialize failed")
          | some ef =>
            match decryptFile fileKeyBytes ef with
            | .error e => .error (.Encryption (cryptoMsg e))
            | .ok plaintext =>
              if toBase58 (contentHashBytes plaintext) ≠ md.file_id then
                .error .IntegrityCheckFailed
              else .ok plaintext

/-! ## Quota manager (storage/quota.rs)

The `contribution_ratio` is an `f64` in the sources; it is modelled as an
exact rational.  Rust `as u64` on a nonnegative float truncates toward
zero, i.e. takes the floor, and saturates at zero for negative values;
`Int.toNat ∘ Int.floor` matches both.  `u64` subtraction in
`available_storage` is `saturating_sub`, matching `Nat` subtraction. -/

/-- `QuotaConfig` struct of storage/quota.rs (the data path is dropped). -/
structure QuotaConfig where
  min_contribution : Nat
  max_usage : Nat
  contributionRatio : ℚ
  grace_period_secs : Nat
  deriving Repr, DecidableEq

/-- `UserQuota` struct of storage/quota.rs. -/
structure UserQuota where
  user_id : String
  bytes_used : Nat
  bytes_contributed : Nat
  files_count : Nat
  shards_hosted : Nat
  joined_at : Nat
  last_active : Nat
  in_grace_period : Bool
  deriving Repr, DecidableEq

/-- Rust `(x as f64 / ratio) as u64` for nonnegative `x`: floor of the
rational quotient, clamped at zero. -/
def floorDivRat (x : Nat) (r : ℚ) : Nat :=
  (((x : ℚ) / r).floor).toNat

/-- Rust `(x as f64 * ratio) as u64` for nonnegative `x`. -/
def floorMulRat (x : Nat) (r : ℚ) : Nat :=
  (((x : ℚ) * r).floor).toNat

/-- Model of `UserQuota::available_storage` (storage/quota.rs lines 79-87):
during the grace period the minimum contribution acts as a free budget,
afterwards the cap is `min(floor(contributed / ratio), max_usage)` minus
the bytes already used, with saturating subtraction. -/
def UserQuota.availableStorage (q : UserQuota) (cfg : QuotaConfig) : Nat :=
  if q.in_grace_period then cfg.min_contribution
  else
    let allowed := floorDivRat q.bytes_contributed cfg.contributionRatio
    min allowed cfg.max_usage - q.bytes_used

/-- Model of `UserQuota::can_upload` (storage/quota.rs lines 90-93). -/
def UserQuota.canUpload (q : UserQuota) (size : Nat) (cfg : QuotaConfig) : Bool :=
  decide (size ≤ q.availableStorage cfg)

/-- Model of `UserQuota::check_grace_period` (storage/quota.rs lines
115-124); `now - joined_at` is `u64` arithmetic, taken saturating here (the
sources never construct `joined_at` in the future). -/
def UserQuota.checkGracePeriod (q : UserQuota) (cfg : QuotaConfig) (now : Nat) :
    UserQuota :=
  if q.in_grace_period ∧ now - q.joined_at > cfg.grace_period_secs then
    { q with in_grace_period := false }
  else q

/-- `QuotaCheckResult` enum of storage/quota.rs. -/
inductive QuotaCheckResult where
  | Allowed
  | InsufficientQuota (current_contribution needed_contribution : Nat)
      (message : String)
  deriving Repr, DecidableEq

/-- Model of `QuotaManager::calculate_needed_contribution` (storage/quota.rs
lines 171-176). -/
def calculateNeededContribution (q : UserQuota) (cfg : QuotaConfig)
    (additionalBytes : Nat) : Nat :=
  floorMulRat (q.bytes_used + additionalBytes) cfg.contributionRatio -
    q.bytes_contributed

/-- Model of `QuotaManager::can_upload` (storage/quota.rs lines 151-168) for
an already-fetched quota record: refresh the grace flag, then admit or
build the structured denial. -/
def managerCanUpload (q : UserQuota) (cfg : QuotaConfig) (now : Nat)
    (size : Nat) : QuotaCheckResult :=
  let q := q.checkGracePeriod cfg now
  if q.canUpload size cfg then .Allowed
  else
    let needed := calculateNeededContribution q cfg size
    .InsufficientQuota q.bytes_contributed needed
      ("Para fazer upload de " ++ toString size ++
        " bytes, voce precisa contribuir " ++ toString needed ++
        " bytes para a rede.")

/-! ## Storage contract (p2p/protocol.rs) -/

/-- `StorageContract` struct of p2p/protocol.rs. -/
structure StorageContract where
  fragment_id : String
  owner_id : String
  storage_peer_id : String
  size_bytes : Nat
  created_at : Int
  expires_at : Int
  owner_signature : Bytes
  storage_signature : Bytes
  deriving Repr, DecidableEq

/-- Model of `StorageContract::new` (p2p/protocol.rs lines 217-237); the
clock is an explicit argument. -/
def StorageContract.mk' (fragmentId ownerId storagePeerId : String)
    (sizeBytes : Nat) (expirationDays : Nat) (now : Int) : StorageContract :=
  { fragment_id := fragmentId, owner_id := ownerId,
    storage_peer_id := storagePeerId, size_bytes := sizeBytes,
    created_at := now,
    expires_at := now + (expirationDays : Int) * 24 * 60 * 60,
    owner_signature := [], storage_signature := [] }

/-- Model of `StorageContract::extend` (p2p/protocol.rs lines 260-263): the
new expiration is `now + days * 86400`, independent of the old value. -/
def StorageContract.extend (c : StorageContract) (days : Nat) (now : Int) :
    StorageContract :=
  { c with expires_at := now + (days : Int) * 24 * 60 * 60 }

/-- Model of `StorageContract::is_expired`. -/
def StorageContract.isExpired (c : StorageContract) (now : Int) : Bool :=
  decide (now > c.expires_at)

/-! ## Peer registry (p2p/discovery.rs)

`reliability` and the composite score are `f32` in the sources; they are
modelled as exact rationals.  The peer table is a `HashMap`; its value
iteration order is unspecified, so the registry is embedded as the list of
peers in whatever order the map yields them, and theorems quantify over
that order.  Rust `sort_by` is a stable sort; Mathlib `List.insertionSort`
with the relation `score b ≤ score a` places earlier-iterated peers first
on ties, which is exactly the stable behaviour. -/

/-- `PeerInfo` struct of p2p/discovery.rs (addresses dropped: `#[serde(skip)]`
and unused by selection). -/
structure PeerInfo where
  peer_id : String
  storage_offered : Nat
  storage_available : Nat
  reliability : ℚ
  latency_ms : Nat
  last_seen : Int
  behind_nat : Bool
  agent_version : String
  deriving Repr, DecidableEq

/-- Model of `PeerInfo::score` (p2p/discovery.rs lines 68-83). -/
def PeerInfo.score (p : PeerInfo) : ℚ :=
  let latencyScore : ℚ := 1 - (min p.latency_ms 1000 : ℚ) / 1000
  let availabilityRat : ℚ :=
    if p.storage_offered > 0 then
      (p.storage_available : ℚ) / (p.storage_offered : ℚ)
    else 0
  p.reliability * (2 / 5) + latencyScore * (3 / 10) + availabilityRat * (3 / 10)

/-- Model of `PeerInfo::is_stale`. -/
def PeerInfo.isStale (p : PeerInfo) (maxAgeSeconds now : Int) : Bool :=
  decide (now - p.last_seen > maxAgeSeconds)

/-- `PeerManager` state of p2p/discovery.rs: peers in map-iteration order,
blacklist as an association list to expiry timestamps. -/
structure PeerManager where
  peers : List PeerInfo
  blacklist : List (String × Int)
  min_reliability : ℚ
  max_age_seconds : Int
  deriving Repr, DecidableEq

/-- Model of `PeerManager::is_blacklisted` (p2p/discovery.rs lines 142-150). -/
def PeerManager.isBlacklisted (pm : PeerManager) (peerId : String) (now : Int) :
    Bool :=
  match pm.blacklist.lookup peerId with
  | some expiry => decide (now < expiry)
  | none => false

/-- Filter predicate of `select_storage_peers` (p2p/discovery.rs lines
174-179). -/
def selectFilter (pm : PeerManager) (requiredBytes : Nat) (now : Int)
    (p : PeerInfo) : Bool :=
  !pm.isBlacklisted p.peer_id now &&
    decide (p.reliability ≥ pm.min_reliability) &&
    decide (p.storage_available ≥ requiredBytes) &&
    !p.isStale pm.max_age_seconds now

/-- Model of `PeerManager::select_storage_peers` (p2p/discovery.rs lines
166-186): filter, stable sort by score descending, take `count`. -/
def selectStoragePeers (pm : PeerManager) (requiredBytes : Nat) (count : Nat)
    (now : Int) : List PeerInfo :=
  ((pm.peers.filter (selectFilter pm requiredBytes now)).insertionSort
    (fun a b => b.score ≤ a.score)).take count

/-! ## Local fragment store (p2p/storage_protocol.rs)

State is the in-memory `StorageManager` plus an abstract disk mapping local
paths to byte contents.  The `HashMap` index is an association list with
replace-on-insert; all claims about it are order-independent.  The clock is
an explicit argument.  Filesystem writes are modelled as total; `save_index`
has no observable effect beyond persistence and is dropped. -/

/-- `StoredFragment` struct of p2p/storage_protocol.rs. -/
structure StoredFragment where
  fragment_id : String
  owner_id : String
  size_bytes : Nat
  content_hash : String
  created_at : Int
  expires_at : Int
  local_path : String
  access_count : Nat
  last_accessed : Int
  deriving Repr, DecidableEq

/-- In-memory part of `StorageManager`. -/
structure SMState where
  max_storage_bytes : Nat
  used_storage_bytes : Nat
  fragment_index : List (String × StoredFragment)
  deriving Repr, DecidableEq

/-- Abstract disk: local path to stored bytes. -/
abbrev Disk := List (String × Bytes)

/-- P2P error of p2p/mod.rs as used by storage_protocol.rs. -/
inductive P2PErr where
  | Protocol (msg : String)
  deriving Repr, DecidableEq

/-- Replace-on-insert for the association-list model of `HashMap::insert`. -/
def alInsert {α : Type} (k : String) (v : α) (l : List (String × α)) :
    List (String × α) :=
  (k, v) :: l.filter (fun p => p.1 ≠ k)

/-- Key removal for the association-list model of `HashMap::remove`. -/
def alErase {α : Type} (k : String) (l : List (String × α)) :
    List (String × α) :=
  l.filter (fun p => p.1 ≠ k)

/-- Rust `&fragment_id[..2]` of the deterministic fragment path (the sources
panic on ids shorter than two bytes; the model truncates). -/
def fragmentLocalPath (fragmentId : String) : String :=
  "fragments/" ++ String.mk (fragmentId.toList.take 2) ++ "/" ++ fragmentId

/-- Model of `StorageManager::store_fragment` (p2p/storage_protocol.rs lines
117-172): capacity check against `used + size`, content hash, disk write,
index insert (replacing any previous record with the same id), and
`used_storage_bytes += size`. -/
def storeFragment (st : SMState) (disk : Disk) (fragmentId ownerId : String)
    (data : Bytes) (expiresAt now : Int) :
    Except P2PErr StoredFragment × SMState × Disk :=
  let size := data.length
  if st.used_storage_bytes + size > st.max_storage_bytes then
    (.error (.Protocol "Insufficient storage space"), st, disk)
  else
    let hash := contentHashBytes data
    let localPath := fragmentLocalPath fragmentId
    let fragment : StoredFragment :=
      { fragment_id := fragmentId, owner_id := ownerId, size_bytes := size,
        content_hash := toBase58 hash, created_at := now,
        expires_at := expiresAt, local_path := localPath,
        access_count := 0, last_accessed := now }
    (.ok fragment,
     { st with
        fragment_index := alInsert fragmentId fragment st.fragment_index,
        used_storage_bytes := st.used_storage_bytes + size },
     alInsert localPath data disk)

/-- Model of `StorageManager::delete_fragment` (p2p/storage_protocol.rs
lines 209-224): remove from the index, delete the file, subtract the
recorded size saturating. -/
def deleteFragment (st : SMState) (disk : Disk) (fragmentId : String) :
    Except P2PErr Unit × SMState × Disk :=
  match st.fragment_index.lookup fragmentId with
  | none => (.ok (), st, disk)
  | some fragment =>
    (.ok (),
     { st with
        fragment_index := alErase fragmentId st.fragment_index,
        used_storage_bytes := st.used_storage_bytes - fragment.size_bytes },
     alErase fragment.local_path disk)

/-- Model of `StorageManager::retrieve_fragment` (p2p/storage_protocol.rs
lines 175-206): lookup, expiry check (expired fragments are deleted), access
bookkeeping, disk read, content-hash verification.  On a hash mismatch the
error is reported and the state keeps the fragment. -/
def retrieveFragment (st : SMState) (disk : Disk) (fragmentId : String)
    (now : Int) : Except P2PErr Bytes × SMState × Disk :=
  match st.fragment_index.lookup fragmentId with
  | none => (.error (.Protocol "Fragment not found"), st, disk)
  | some fragment =>
    if now > fragment.expires_at then
      let (_, st', disk') := deleteFragment st disk fragmentId
      (.error (.Protocol "Fragment expired"), st', disk')
    else
      let fragment' := { fragment with
        access_count := fragment.access_count + 1, last_accessed := now }
      let st' := { st with
        fragment_index := alInsert fragmentId fragment' st.fragment_index }
      match disk.lookup fragment.local_path with
      | none => (.error (.Protocol "Failed to read fragment"), st', disk)
      | some data =>
        if toBase58 (contentHashBytes data) ≠ fragment.content_hash then
          (.error (.Protocol "Fragment integrity check failed"), st', disk)
        else (.ok data, st', disk)

/-- Model of `StorageManager::cleanup_expired` (p2p/storage_protocol.rs
lines 264-280): delete every fragment with `now > expires_at`. -/
def cleanupExpired (st : SMState) (disk : Disk) (now : Int) :
    Nat × SMState × Disk :=
  let expired := (st.fragment_index.filter
    (fun p => decide (now > p.2.expires_at))).map (fun p => p.1)
  (expired.length,
   expired.foldl (fun acc id =>
     let (_, st', disk') := deleteFragment acc.1 acc.2 id
     (st', disk')) (st, disk))

/-- Model of the index-loading phase of `StorageManager::initialize`
(p2p/storage_protocol.rs lines 78-101): adopt the loaded index and recompute
`used_storage_bytes` as the sum of the recorded sizes. -/
def initLoadIndex (st : SMState) (loaded : List (String × StoredFragment)) :
    SMState :=
  { st with
     fragment_index := loaded,
     used_storage_bytes := ((loaded.map (fun p => p.2.size_bytes)).sum) }

/-- Operations of the fragment store considered by the accounting claim. -/
inductive SMOp where
  | store (fragmentId ownerId : String) (data : Bytes) (expiresAt now : Int)
  | delete (fragmentId : String)
  | cleanup (now : Int)
  | initLoad (loaded : List (String × StoredFragment))
  deriving Repr

/-- One step of the fragment store. -/
def smStep (s : SMState × Disk) (op : SMOp) : SMState × Disk :=
  match op with
  | .store id owner data expiresAt now =>
    (storeFragment s.1 s.2 id owner data expiresAt now).2
  | .delete id => (deleteFragment s.1 s.2 id).2
  | .cleanup now => (cleanupExpired s.1 s.2 now).2
  | .initLoad loaded => (initLoadIndex s.1 loaded, s.2)

/-- Execution of a list of fragment-store operations from an initial state. -/
def smRun (s : SMState × Disk) (ops : List SMOp) : SMState × Disk :=
  ops.foldl smStep s

/-- Fresh store state of `StorageManager::new`. -/
def smNew (maxBytes : Nat) : SMState :=
  { max_storage_bytes := maxBytes, used_storage_bytes := 0,
    fragment_index := [] }

/-- Accounting invariant claimed for the fragment store: the used-bytes
counter equals the summed sizes of the index entries. -/
def SMAccounting (st : SMState) : Prop :=
  st.used_storage_bytes =
    ((st.fragment_index.map (fun p => p.2.size_bytes)).sum)

/-- Wellformedness of the association-list model of the index: keys are
distinct, and every record's key and recorded path match its position
(automatic for states reached through the operations). -/
def SMWf (st : SMState) : Prop :=
  (st.fragment_index.map (fun p => p.1)).Nodup

/-! ## Concrete instances used by witnesses -/

instance peerScoreTotal :
    IsTotal PeerInfo (fun a b => PeerInfo.score b ≤ PeerInfo.score a) :=
  ⟨fun a b => le_total b.score a.score⟩

instance peerScoreTrans :
    IsTrans PeerInfo (fun a b => PeerInfo.score b ≤ PeerInfo.score a) :=
  ⟨fun _ _ _ h1 h2 => le_trans h2 h1⟩

/-- Default identity value used as a fallback when destructuring results. -/
def fallbackIdentity : UserIdentity :=
  { master_seed := [],
    signing_keys := { signing_key := [], verifying_key := [] },
    encryption_key := [], node_id := [] }

/-- Concrete twelve-word mnemonic accepted by the parser model. -/
def mnemonicW : String :=
  "a b c d e f g h i j k l"

/-- Identity derived from `mnemonicW` without a passphrase. -/
def identityW : UserIdentity :=
  (fromSeedPhrase mnemonicW none).toOption.getD fallbackIdentity

/-- Peer record with a score independent of the id, used to exhibit ties. -/
def tiePeer (id : String) : PeerInfo :=
  { peer_id := id, storage_offered := 100, storage_available := 50,
    reliability := 1 / 2, latency_ms := 0, last_seen := 0,
    behind_nat := false, agent_version := "" }

/-- Registry whose hash map yields its peers in the given order. -/
def pmIter (ps : List PeerInfo) : PeerManager :=
  { peers := ps, blacklist := [], min_reliability := 3 / 10,
    max_age_seconds := 3600 }

instance exceptDecEq {eps alp : Type} [DecidableEq eps] [DecidableEq alp] :
    DecidableEq (Except eps alp) := fun
  | .ok a, .ok b =>
    match decEq a b with
    | isTrue h => isTrue (h ▸ rfl)
    | isFalse h => isFalse (fun hc => h (Except.ok.inj hc))
  | .ok _, .error _ => isFalse (fun hc => Except.noConfusion hc)
  | .error _, .ok _ => isFalse (fun hc => Except.noConfusion hc)
  | .error e, .error f =>
    match decEq e f with
    | isTrue h => isTrue (h ▸ rfl)
    | isFalse h => isFalse (fun hc => h (Except.error.inj hc))

/-! ## Theorems -/

/-! ### C5: contract extension -/

/-- C5 (counterexample): the claim says `extend(d)` strictly increases
`expires_at` for every contract and every `d`.  For a contract whose
expiration lies further in the future than `now + d * 86400`, `extend`
overwrites it with a smaller value: here a contract expiring at `10^9`
extended by 90 days at `now = 0` ends up expiring at `7776000 < 10^9`. -/
theorem extend_can_decrease_expires_at :
    ¬ ((StorageContract.extend
        { fragment_id := "frag-001", owner_id := "owner", storage_peer_id := "peer",
          size_bytes := 1024, created_at := 0, expires_at := 1000000000,
          owner_signature := [], storage_signature := [] } 90 0).expires_at >
      (1000000000 : Int)) := by
  decide

/-- C5 (amended): `extend(d)` sets `expires_at := now + d * 86400`; this
strictly increases `expires_at` exactly when the current expiration is
below `now + d * 86400` (in particular for any expired contract and `d ≥ 1`),
and decreases or preserves it otherwise. -/
theorem extend_expires_at_iff (c : StorageContract) (days : Nat) (now : Int) :
    (c.extend days now).expires_at > c.expires_at ↔
      c.expires_at < now + (days : Int) * 24 * 60 * 60 := by
  simp [StorageContract.extend]

/-! ### C9: truncation length of the reconstruct path -/

/-- Uniform-size evaluation of the truncation length computed by
`reconstruct_file`: with `k + m` recorded shard sizes all equal to `ss`,
the integer arithmetic yields `k * ss`. -/
theorem truncationLen_uniform_aux (md : FileMetadata) (ss : Nat)
    (hlen : md.shards.length = md.erasure_config.total_shards)
    (hsz : ∀ loc ∈ md.shards, loc.size = ss)
    (hpos : 0 < md.erasure_config.total_shards) :
    reconstructTruncationLen md = md.erasure_config.data_shards * ss := by
  have hmap : md.shards.map (fun s => s.size) =
      List.replicate md.erasure_config.total_shards ss := by
    rw [List.eq_replicate_iff]
    refine ⟨by simpa using hlen, ?_⟩
    intro b hb
    rcases List.mem_map.mp hb with ⟨loc, hloc, rfl⟩
    exact hsz loc hloc
  rw [reconstructTruncationLen, hmap, List.sum_replicate, smul_eq_mul,
    Nat.mul_div_cancel_left _ hpos, Nat.mul_comm]

/-- C9 (counterexample): `reconstruct_file` does not pass
`Σ shards[i].size` to the decoder.  For metadata with `(k, m) = (1, 1)` and
two recorded shard sizes of 3, the sum is 6 while the length actually
passed, `(Σ sizes) / (k + m) * k`, is 3. -/
theorem reconstructTruncationLen_ne_sum :
    reconstructTruncationLen
      { file_id := "f", filename := "n", size := 6, mime_type := "m",
        encrypted_hash := "h",
        erasure_config := { data_shards := 1, parity_shards := 1 },
        shards := [
          { index := 0, shard_id := "s0", peers := [], size := 3, hash := "h0" },
          { index := 1, shard_id := "s1", peers := [], size := 3, hash := "h1" }],
        created_at := 0, modified_at := 0, owner_id := "o", is_shared := false,
        shared_with := [], encrypted_file_key := [], folder_id := none,
        tags := [] } ≠
    specTruncationLen
      { file_id := "f", filename := "n", size := 6, mime_type := "m",
        encrypted_hash := "h",
        erasure_config := { data_shards := 1, parity_shards := 1 },
        shards := [
          { index := 0, shard_id := "s0", peers := [], size := 3, hash := "h0" },
          { index := 1, shard_id := "s1", peers := [], size := 3, hash := "h1" }],
        created_at := 0, modified_at := 0, owner_id := "o", is_shared := false,
        shared_with := [], encrypted_file_key := [], folder_id := none,
        tags := [] } := by
  decide

/-- C9 (amended): the truncation length `reconstruct_file` hands to the
erasure decoder is `(Σ shards[i].size) / (k + m) * k` in integer
arithmetic; when the metadata records `k + m` shards of one common size
`ss` - as `prepare_upload` always does - this equals `k * ss`, the
zero-padded length of the serialized encrypted file, not the plain sum. -/
theorem reconstructTruncationLen_uniform (md : FileMetadata) (ss : Nat)
    (hlen : md.shards.length = md.erasure_config.total_shards)
    (hsz : ∀ loc ∈ md.shards, loc.size = ss)
    (hpos : 0 < md.erasure_config.total_shards) :
    reconstructTruncationLen md = md.erasure_config.data_shards * ss :=
  truncationLen_uniform_aux md ss hlen hsz hpos

/-- C9 (witness for the amended theorem): concrete metadata with two
size-3 shards and `(k, m) = (1, 1)` yields truncation length `1 * 3`. -/
theorem reconstructTruncationLen_uniform_witness :
    reconstructTruncationLen
      { file_id := "f", filename := "n", size := 6, mime_type := "m",
        encrypted_hash := "h",
        erasure_config := { data_shards := 1, parity_shards := 1 },
        shards := [
          { index := 0, shard_id := "a0", peers := [], size := 3, hash := "w0" },
          { index := 1, shard_id := "a1", peers := [], size := 3, hash := "w1" }],
        created_at := 0, modified_at := 0, owner_id := "o", is_shared := false,
        shared_with := [], encrypted_file_key := [], folder_id := none,
        tags := [] } = 1 * 3 :=
  reconstructTruncationLen_uniform _ 3 (by decide)
    (by intro loc hloc; fin_cases hloc <;> rfl) (by decide)

/-! ### C4: quota admission -/

/-- C4 helper: refreshing the grace flag never changes the byte counters. -/
theorem checkGracePeriod_counters (q : UserQuota) (cfg : QuotaConfig)
    (now : Nat) :
    (q.checkGracePeriod cfg now).bytes_used = q.bytes_used ∧
    (q.checkGracePeriod cfg now).bytes_contributed = q.bytes_contributed := by
  unfold UserQuota.checkGracePeriod
  split <;> exact ⟨rfl, rfl⟩

/-- C4 (counterexample): the claim states that outside the grace period an
upload is allowed iff `bytes_used + size ≤ min(floor(contributed / ratio),
max_usage)`.  The code computes the budget with saturating subtraction, so
a user whose usage already exceeds the cap is still allowed a zero-size
upload: with `bytes_used = 5`, `bytes_contributed = 0`, ratio 1 and
`size = 0`, the code answers `Allowed` while the claimed inequality
`5 + 0 ≤ min(0, 100) = 0` is false. -/
theorem quota_zero_size_allowed_despite_deficit :
    managerCanUpload
      { user_id := "u", bytes_used := 5, bytes_contributed := 0,
        files_count := 1, shards_hosted := 0, joined_at := 0,
        last_active := 0, in_grace_period := false }
      { min_contribution := 100, max_usage := 100, contributionRatio := 1,
        grace_period_secs := 0 } 1000 0 = .Allowed ∧
    ¬ (5 + 0 ≤ min (floorDivRat 0 (1 : ℚ)) 100) := by
  have hfl : floorDivRat 0 (1 : ℚ) = 0 := by
    have h0 : ((0 : Nat) : ℚ) / 1 = 0 := by norm_num
    simp [floorDivRat, h0]
    rfl
  constructor
  · simp [managerCanUpload, UserQuota.checkGracePeriod, UserQuota.canUpload]
  · simp [hfl]

/-- C4 (amended): admission rule of `QuotaManager::can_upload` after the
grace refresh.  In the grace period the upload is allowed iff
`size ≤ min_contribution`.  Outside it, the upload is allowed iff
`bytes_used + size ≤ min(floor(contributed / ratio), max_usage)` or
`size = 0` (the saturating subtraction in `available_storage` always leaves
a zero budget, so zero-size uploads pass even when usage already exceeds
the cap).  Every denial carries the current contribution and the needed
contribution `floor((used + size) * ratio) - contributed` together with the
formatted message. -/
theorem managerCanUpload_characterization (q0 : UserQuota) (cfg : QuotaConfig)
    (now size : Nat) :
    ((q0.checkGracePeriod cfg now).in_grace_period = true →
      (managerCanUpload q0 cfg now size = .Allowed ↔
        size ≤ cfg.min_contribution)) ∧
    ((q0.checkGracePeriod cfg now).in_grace_period = false →
      (managerCanUpload q0 cfg now size = .Allowed ↔
        (q0.bytes_used + size ≤
          min (floorDivRat q0.bytes_contributed cfg.contributionRatio)
            cfg.max_usage ∨ size = 0))) ∧
    (managerCanUpload q0 cfg now size ≠ .Allowed →
      managerCanUpload q0 cfg now size =
        .InsufficientQuota q0.bytes_contributed
          (calculateNeededContribution (q0.checkGracePeriod cfg now) cfg size)
          ("Para fazer upload de " ++ toString size ++
            " bytes, voce precisa contribuir " ++
            toString
              (calculateNeededContribution (q0.checkGracePeriod cfg now) cfg
                size) ++
            " bytes para a rede.")) := by
  obtain ⟨hused, hcontr⟩ := checkGracePeriod_counters q0 cfg now
  set q := q0.checkGracePeriod cfg now with hq
  have hmain : managerCanUpload q0 cfg now size =
      (if q.canUpload size cfg then .Allowed
       else
        .InsufficientQuota q.bytes_contributed
          (calculateNeededContribution q cfg size)
          ("Para fazer upload de " ++ toString size ++
            " bytes, voce precisa contribuir " ++
            toString (calculateNeededContribution q cfg size) ++
            " bytes para a rede.")) := rfl
  refine ⟨?_, ?_, ?_⟩
  · intro hgrace
    rw [hmain]
    have havail : q.availableStorage cfg = cfg.min_contribution := by
      unfold UserQuota.availableStorage
      rw [hgrace]
      simp
    constructor
    · intro hall
      by_contra hnot
      have : q.canUpload size cfg = false := by
        unfold UserQuota.canUpload
        rw [havail]
        simpa using hnot
      rw [this] at hall
      simp at hall
    · intro hle
      have : q.canUpload size cfg = true := by
        unfold UserQuota.canUpload
        rw [havail]
        simpa using hle
      rw [this]
      rfl
  · intro hgrace
    rw [hmain]
    have havail : q.availableStorage cfg =
        min (floorDivRat q0.bytes_contributed cfg.contributionRatio)
          cfg.max_usage - q0.bytes_used := by
      unfold UserQuota.availableStorage
      rw [hgrace, hcontr, hused]
      simp
    constructor
    · intro hall
      by_contra hnot
      have : q.canUpload size cfg = false := by
        unfold UserQuota.canUpload
        rw [havail]
        simp only [decide_eq_false_iff_not]
        omega
      rw [this] at hall
      simp at hall
    · intro hle
      have : q.canUpload size cfg = true := by
        unfold UserQuota.canUpload
        rw [havail]
        simp only [decide_eq_true_eq]
        omega
      rw [this]
      rfl
  · intro hne
    rw [hmain] at hne ⊢
    by_cases hcan : q.canUpload size cfg = true
    · rw [if_pos hcan] at hne
      exact absurd rfl hne
    · rw [if_neg hcan]
      rw [hcontr]

/-- C4 (witness for the amended theorem): a user in the grace period with
the default-style config may upload 5 bytes iff `5 ≤ 100`, instantiating
the characterization at a concrete state. -/
theorem managerCanUpload_characterization_witness :
    managerCanUpload
      { user_id := "w", bytes_used := 0, bytes_contributed := 0,
        files_count := 0, shards_hosted := 0, joined_at := 0,
        last_active := 0, in_grace_period := true }
      { min_contribution := 100, max_usage := 1000, contributionRatio := 1,
        grace_period_secs := 600 } 0 5 = .Allowed ↔ 5 ≤ 100 :=
  (managerCanUpload_characterization
    { user_id := "w", bytes_used := 0, bytes_contributed := 0,
      files_count := 0, shards_hosted := 0, joined_at := 0,
      last_active := 0, in_grace_period := true }
    { min_contribution := 100, max_usage := 1000, contributionRatio := 1,
      grace_period_secs := 600 } 0 5).1 (by decide)

/-! ### C3: corruption handling on retrieval -/

/-- Lookup after replace-on-insert finds the inserted value. -/
theorem alInsert_lookup_self {α : Type} (k : String) (v : α)
    (l : List (String × α)) : (alInsert k v l).lookup k = some v := by
  simp [alInsert, List.lookup]

/-- C3 (counterexample): the claim says a failed integrity check on
retrieval deletes the local copy.  For a stored, unexpired fragment whose
disk bytes do not hash to the recorded `content_hash`, `retrieve_fragment`
reports the failure but the fragment is still in the index afterwards. -/
theorem retrieve_corrupt_keeps_fragment :
    (retrieveFragment
      { max_storage_bytes := 1000, used_storage_bytes := 3,
        fragment_index := [("ab",
          { fragment_id := "ab", owner_id := "o", size_bytes := 3,
            content_hash := "bogus", created_at := 0, expires_at := 100,
            local_path := "fragments/ab/ab", access_count := 0,
            last_accessed := 0 })] }
      [("fragments/ab/ab", [1, 2, 3])] "ab" 50).1 =
      .error (.Protocol "Fragment integrity check failed") ∧
    ((retrieveFragment
      { max_storage_bytes := 1000, used_storage_bytes := 3,
        fragment_index := [("ab",
          { fragment_id := "ab", owner_id := "o", size_bytes := 3,
            content_hash := "bogus", created_at := 0, expires_at := 100,
            local_path := "fragments/ab/ab", access_count := 0,
            last_accessed := 0 })] }
      [("fragments/ab/ab", [1, 2, 3])] "ab" 50).2.1.fragment_index.lookup
        "ab").isSome = true := by
  decide

/-- C3 (amended): for every stored, non-expired fragment whose on-disk
bytes no longer hash to the recorded `content_hash`, `retrieve_fragment`
reports the integrity-check failure to the caller but does NOT delete the
local copy: the fragment stays in the index (with its access statistics
bumped by the lookup) and the disk is unchanged. -/
theorem retrieve_corrupt_reports_and_keeps
    (st : SMState) (disk : Disk) (id : String) (now : Int)
    (frag : StoredFragment) (data : Bytes)
    (hlook : st.fragment_index.lookup id = some frag)
    (hexp : ¬ now > frag.expires_at)
    (hdisk : disk.lookup frag.local_path = some data)
    (hhash : toBase58 (contentHashBytes data) ≠ frag.content_hash) :
    (retrieveFragment st disk id now).1 =
      .error (.Protocol "Fragment integrity check failed") ∧
    (retrieveFragment st disk id now).2.1.fragment_index.lookup id =
      some { frag with access_count := frag.access_count + 1,
                       last_accessed := now } ∧
    (retrieveFragment st disk id now).2.2 = disk := by
  unfold retrieveFragment
  rw [hlook]
  simp [if_neg hexp, hdisk, if_pos hhash, alInsert_lookup_self]

/-- C3 (witness for the amended theorem): instantiates the corrupt-retrieval
behaviour at the concrete one-fragment store. -/
theorem retrieve_corrupt_reports_and_keeps_witness :
    (retrieveFragment
      { max_storage_bytes := 1000, used_storage_bytes := 3,
        fragment_index := [("cd",
          { fragment_id := "cd", owner_id := "o", size_bytes := 3,
            content_hash := "tampered", created_at := 0, expires_at := 100,
            local_path := "fragments/cd/cd", access_count := 4,
            last_accessed := 0 })] }
      [("fragments/cd/cd", [7, 8, 9])] "cd" 50).1 =
      .error (.Protocol "Fragment integrity check failed") ∧
    (retrieveFragment
      { max_storage_bytes := 1000, used_storage_bytes := 3,
        fragment_index := [("cd",
          { fragment_id := "cd", owner_id := "o", size_bytes := 3,
            content_hash := "tampered", created_at := 0, expires_at := 100,
            local_path := "fragments/cd/cd", access_count := 4,
            last_accessed := 0 })] }
      [("fragments/cd/cd", [7, 8, 9])] "cd" 50).2.1.fragment_index.lookup
        "cd" = some
          { fragment_id := "cd", owner_id := "o", size_bytes := 3,
            content_hash := "tampered", created_at := 0, expires_at := 100,
            local_path := "fragments/cd/cd", access_count := 5,
            last_accessed := 50 } ∧
    (retrieveFragment
      { max_storage_bytes := 1000, used_storage_bytes := 3,
        fragment_index := [("cd",
          { fragment_id := "cd", owner_id := "o", size_bytes := 3,
            content_hash := "tampered", created_at := 0, expires_at := 100,
            local_path := "fragments/cd/cd", access_count := 4,
            last_accessed := 0 })] }
      [("fragments/cd/cd", [7, 8, 9])] "cd" 50).2.2 =
      [("fragments/cd/cd", [7, 8, 9])] :=
  retrieve_corrupt_reports_and_keeps _ _ _ _ _ _ (by rfl) (by decide)
    (by rfl) (by decide)

/-! ### C10: fragment-store accounting invariant -/

/-- A key that fails lookup is filtered in vacuously. -/
theorem filter_ne_of_lookup_none {α : Type} (k : String)
    (l : List (String × α)) (h : l.lookup k = none) :
    l.filter (fun p => p.1 ≠ k) = l := by
  induction l with
  | nil => rfl
  | cons hd tl ih =>
    obtain ⟨k', v'⟩ := hd
    by_cases he : k = k'
    · simp [List.lookup, he] at h
    · have hbeq : (k == k') = false := beq_eq_false_iff_ne.mpr he
      simp only [List.lookup, hbeq] at h
      have hcond : (decide (k' ≠ k)) = true := by simp [Ne.symm he]
      rw [List.filter_cons, hcond, if_pos rfl, ih h]

/-- Lookup misses every list whose keys avoid `k`. -/
theorem lookup_none_of_not_mem {α : Type} (k : String)
    (l : List (String × α)) (h : k ∉ l.map (fun p => p.1)) :
    l.lookup k = none := by
  induction l with
  | nil => rfl
  | cons hd tl ih =>
    obtain ⟨k', v'⟩ := hd
    simp only [List.map_cons, List.mem_cons] at h
    push_neg at h
    have hbeq : (k == k') = false := beq_eq_false_iff_ne.mpr h.1
    simp only [List.lookup, hbeq]
    exact ih h.2

/-- Size bookkeeping of key removal under distinct keys: the removed
record's size splits off the sum. -/
theorem sum_alErase (l : List (String × StoredFragment)) (k : String)
    (v : StoredFragment) (hnd : (l.map (fun p => p.1)).Nodup)
    (hlook : l.lookup k = some v) :
    ((alErase k l).map (fun p => p.2.size_bytes)).sum + v.size_bytes =
      ((l.map (fun p => p.2.size_bytes)).sum) := by
  induction l with
  | nil => simp [List.lookup] at hlook
  | cons hd tl ih =>
    obtain ⟨k', v'⟩ := hd
    simp only [List.map_cons, List.nodup_cons] at hnd
    by_cases he : k = k'
    · subst he
      have hbeq : (k == k) = true := by simp
      simp only [List.lookup, hbeq] at hlook
      have hv : v' = v := by injection hlook
      subst hv
      have hfil : tl.filter (fun p => p.1 ≠ k) = tl :=
        filter_ne_of_lookup_none k tl (lookup_none_of_not_mem k tl hnd.1)
      have hcond : (decide (k ≠ k)) = false := by simp
      simp only [alErase]
      rw [List.filter_cons, hcond, if_neg (by simp), hfil]
      simp only [List.map_cons, List.sum_cons]
      omega
    · have hbeq : (k == k') = false := beq_eq_false_iff_ne.mpr he
      simp only [List.lookup, hbeq] at hlook
      have hkk : k' ≠ k := Ne.symm he
      have hrec := ih hnd.2 hlook
      have hcond : (decide (k' ≠ k)) = true := by simp [hkk]
      simp only [alErase] at hrec ⊢
      rw [List.filter_cons, hcond, if_pos rfl]
      simp only [List.map_cons, List.sum_cons]
      omega

/-- Keys stay distinct across replace-on-insert. -/
theorem nodup_alInsert {α : Type} (k : String) (v : α)
    (l : List (String × α)) (hnd : (l.map (fun p => p.1)).Nodup) :
    ((alInsert k v l).map (fun p => p.1)).Nodup := by
  simp only [alInsert, List.map_cons, List.nodup_cons]
  refine ⟨?_, ?_⟩
  · intro hmem
    rcases List.mem_map.mp hmem with ⟨p, hp, hpk⟩
    have hne := List.of_mem_filter hp
    simp only [decide_eq_true_eq] at hne
    exact hne hpk
  · exact (List.Sublist.map (fun p => p.1) (List.filter_sublist l)).nodup hnd

/-- Keys stay distinct across key removal. -/
theorem nodup_alErase {α : Type} (k : String)
    (l : List (String × α)) (hnd : (l.map (fun p => p.1)).Nodup) :
    ((alErase k l).map (fun p => p.1)).Nodup :=
  (List.Sublist.map (fun p => p.1) (List.filter_sublist l)).nodup hnd

/-- Deletion preserves wellformedness and the accounting invariant. -/
theorem deleteFragment_preserves (st : SMState) (disk : Disk) (id : String)
    (hwf : SMWf st) (hacc : SMAccounting st) :
    SMAccounting (deleteFragment st disk id).2.1 ∧
      SMWf (deleteFragment st disk id).2.1 := by
  unfold deleteFragment
  rcases hlook : st.fragment_index.lookup id with _ | frag
  · exact ⟨hacc, hwf⟩
  · have hsum := sum_alErase st.fragment_index id frag hwf hlook
    refine ⟨?_, nodup_alErase id st.fragment_index hwf⟩
    unfold SMAccounting at hacc ⊢
    simp only
    omega

/-- Folded deletions preserve wellformedness and the accounting invariant. -/
theorem deleteFold_preserves (ids : List String) :
    ∀ st disk, SMWf st → SMAccounting st →
    SMAccounting (ids.foldl (fun acc id =>
      ((deleteFragment acc.1 acc.2 id).2.1, (deleteFragment acc.1 acc.2 id).2.2))
      (st, disk)).1 ∧
    SMWf (ids.foldl (fun acc id =>
      ((deleteFragment acc.1 acc.2 id).2.1, (deleteFragment acc.1 acc.2 id).2.2))
      (st, disk)).1 := by
  induction ids with
  | nil => intro st disk hwf hacc; exact ⟨hacc, hwf⟩
  | cons hd tl ih =>
    intro st disk hwf hacc
    have h1 := deleteFragment_preserves st disk hd hwf hacc
    simpa using ih (deleteFragment st disk hd).2.1
      (deleteFragment st disk hd).2.2 h1.2 h1.1

/-- C10 (counterexample): the implicit invariant fails for re-stores.
Storing fragment "ab" (3 bytes) twice leaves `used_storage_bytes = 6`
while the index holds one record of size 3: the re-store adds the new size
without subtracting the replaced record. -/
theorem restore_double_counts :
    ¬ SMAccounting
      (smRun (smNew 1000, [])
        [SMOp.store "ab" "o" [1, 2, 3] 100 0,
         SMOp.store "ab" "o" [9, 9, 9] 100 0]).1 := by
  simp only [SMAccounting]
  decide

/-- C10 (amended): `used_storage_bytes = Σ size_bytes` over the index is
preserved by every `delete_fragment`, `cleanup_expired` and index-loading
`initialize` step (loaded JSON maps have distinct keys), and by every
`store_fragment` whose fragment_id is NOT already present; re-storing an
existing id adds the new size without subtracting the replaced record and
breaks the invariant (the loading step restores it by recomputing). -/
theorem smStep_preserves_accounting (st : SMState) (disk : Disk) (op : SMOp)
    (hwf : SMWf st) (hacc : SMAccounting st)
    (hfresh : ∀ id owner data e n, op = .store id owner data e n →
      st.fragment_index.lookup id = none)
    (hload : ∀ loaded, op = .initLoad loaded →
      (loaded.map (fun p => p.1)).Nodup) :
    SMAccounting (smStep (st, disk) op).1 ∧ SMWf (smStep (st, disk) op).1 := by
  cases op with
  | store id owner data e n =>
    have hlook := hfresh id owner data e n rfl
    simp only [smStep, storeFragment]
    by_cases hcap : st.used_storage_bytes + data.length > st.max_storage_bytes
    · rw [if_pos hcap]
      exact ⟨hacc, hwf⟩
    · rw [if_neg hcap]
      refine ⟨?_, nodup_alInsert id _ st.fragment_index hwf⟩
      unfold SMAccounting at hacc ⊢
      simp only [alInsert,
        filter_ne_of_lookup_none id st.fragment_index hlook, List.map_cons,
        List.sum_cons]
      omega
  | delete id =>
    exact deleteFragment_preserves st disk id hwf hacc
  | cleanup now =>
    simp only [smStep, cleanupExpired]
    exact deleteFold_preserves _ st disk hwf hacc
  | initLoad loaded =>
    exact ⟨rfl, hload loaded rfl⟩

/-- C10 (witness for the amended theorem): a fresh store of a 1-byte
fragment into the empty store keeps the invariant. -/
theorem smStep_preserves_accounting_witness :
    SMAccounting
      (smStep (smNew 10, []) (SMOp.store "ab" "o" [1] 5 0)).1 ∧
    SMWf (smStep (smNew 10, []) (SMOp.store "ab" "o" [1] 5 0)).1 :=
  smStep_preserves_accounting (smNew 10) [] (SMOp.store "ab" "o" [1] 5 0)
    (by simp [SMWf, smNew]) (by simp [SMAccounting, smNew])
    (fun _ _ _ _ _ _ => rfl) (fun loaded h => by cases h)

/-! ### C6: peer selection -/

/-- C6 (amended): `select_storage_peers` returns at most `count` peers;
every returned peer is non-blacklisted, non-stale, has reliability at least
`min_reliability` and available storage at least `required_bytes`; and the
list is sorted by composite score descending.  (The tie-break is the hash
map's unspecified value-iteration order - the sort is stable - not
first-seen order; see the counterexample.) -/
theorem select_storage_peers_post (pm : PeerManager) (required count : Nat)
    (now : Int) :
    (selectStoragePeers pm required count now).length ≤ count ∧
    (∀ p ∈ selectStoragePeers pm required count now,
      pm.isBlacklisted p.peer_id now = false ∧
      p.isStale pm.max_age_seconds now = false ∧
      pm.min_reliability ≤ p.reliability ∧
      required ≤ p.storage_available) ∧
    (selectStoragePeers pm required count now).Pairwise
      (fun a b => b.score ≤ a.score) := by
  refine ⟨?_, ?_, ?_⟩
  · simpa [selectStoragePeers] using
      (List.length_take_le count _)
  · intro p hp
    have hp1 : p ∈ (pm.peers.filter (selectFilter pm required now)).insertionSort
        (fun a b => b.score ≤ a.score) :=
      (List.take_sublist count _).subset hp
    have hp2 : p ∈ pm.peers.filter (selectFilter pm required now) :=
      (List.perm_insertionSort (fun a b => b.score ≤ a.score) _).subset hp1
    have hp3 := (List.mem_filter.mp hp2).2
    simp only [selectFilter, Bool.and_eq_true, Bool.not_eq_true',
      decide_eq_true_eq] at hp3
    exact ⟨hp3.1.1.1, hp3.2, hp3.1.1.2, hp3.1.2⟩
  · have hs := List.sorted_insertionSort (fun (a b : PeerInfo) => b.score ≤ a.score)
      (pm.peers.filter (selectFilter pm required now))
    exact List.Pairwise.sublist (List.take_sublist count _) hs

/-- C6 (witness for the amended theorem): the postconditions at a concrete
two-peer registry. -/
theorem select_storage_peers_post_witness :
    (selectStoragePeers (pmIter [tiePeer "A", tiePeer "B"]) 10 5 0).length ≤ 5 ∧
    (∀ p ∈ selectStoragePeers (pmIter [tiePeer "A", tiePeer "B"]) 10 5 0,
      (pmIter [tiePeer "A", tiePeer "B"]).isBlacklisted p.peer_id 0 = false ∧
      p.isStale (pmIter [tiePeer "A", tiePeer "B"]).max_age_seconds 0 = false ∧
      (pmIter [tiePeer "A", tiePeer "B"]).min_reliability ≤ p.reliability ∧
      10 ≤ p.storage_available) ∧
    (selectStoragePeers (pmIter [tiePeer "A", tiePeer "B"]) 10 5 0).Pairwise
      (fun a b => b.score ≤ a.score) :=
  select_storage_peers_post (pmIter [tiePeer "A", tiePeer "B"]) 10 5 0

/-- C6 (counterexample): ties are NOT broken by first-seen order.  The peer
table is a `HashMap` whose value-iteration order is unspecified; the stable
sort keeps that order on ties.  Two equal-score peers come out in whichever
order the map yields them: iterating `[A, B]` returns `[A, B]` while
iterating the same two peers as `[B, A]` returns `[B, A]`, so the output is
not determined by the peer set plus first-seen order. -/
theorem select_tie_depends_on_iteration_order :
    tiePeer "A" ≠ tiePeer "B" ∧
    (tiePeer "A").score = (tiePeer "B").score ∧
    selectStoragePeers (pmIter [tiePeer "A", tiePeer "B"]) 10 5 0 =
      [tiePeer "A", tiePeer "B"] ∧
    selectStoragePeers (pmIter [tiePeer "B", tiePeer "A"]) 10 5 0 =
      [tiePeer "B", tiePeer "A"] := by
  have hle : (tiePeer "B").score ≤ (tiePeer "A").score := le_of_eq rfl
  have hle' : (tiePeer "A").score ≤ (tiePeer "B").score := le_of_eq rfl
  have hfil : ∀ (l : List PeerInfo) (id : String),
      selectFilter (pmIter l) 10 0 (tiePeer id) = true := by
    intro l id
    simp only [selectFilter, pmIter, PeerManager.isBlacklisted,
      PeerInfo.isStale, tiePeer, List.lookup, Bool.and_eq_true,
      Bool.not_eq_true', decide_eq_true_eq, decide_eq_false_iff_not]
    refine ⟨⟨⟨trivial, ?_⟩, by norm_num⟩, by norm_num⟩
    norm_num
  refine ⟨by decide, rfl, ?_, ?_⟩
  · show (((([tiePeer "A", tiePeer "B"]).filter
        (selectFilter (pmIter [tiePeer "A", tiePeer "B"]) 10 0)).insertionSort
        (fun a b => b.score ≤ a.score)).take 5) = [tiePeer "A", tiePeer "B"]
    rw [List.filter_cons, hfil, if_pos rfl, List.filter_cons, hfil,
      if_pos rfl, List.filter_nil]
    simp only [List.insertionSort, List.orderedInsert]
    rw [if_pos hle]
    rfl
  · show (((([tiePeer "B", tiePeer "A"]).filter
        (selectFilter (pmIter [tiePeer "B", tiePeer "A"]) 10 0)).insertionSort
        (fun a b => b.score ≤ a.score)).take 5) = [tiePeer "B", tiePeer "A"]
    rw [List.filter_cons, hfil, if_pos rfl, List.filter_cons, hfil,
      if_pos rfl, List.filter_nil]
    simp only [List.insertionSort, List.orderedInsert]
    rw [if_pos hle']
    rfl

/-! ### C7: identity determinism -/

/-- C7 (confirmed): `UserIdentity::from_seed_phrase` consumes no randomness
(unlike `UserIdentity::generate`, its embedding takes no RNG input), so two
runs on the same mnemonic and passphrase that both succeed yield the same
public id, the same signing key pair, and the same encryption key. -/
theorem from_seed_phrase_deterministic (m : String) (p : Option String)
    (i j : UserIdentity)
    (h1 : fromSeedPhrase m p = .ok i) (h2 : fromSeedPhrase m p = .ok j) :
    i.publicId = j.publicId ∧ i.signing_keys = j.signing_keys ∧
      i.encryption_key = j.encryption_key := by
  rw [h1] at h2
  cases h2
  exact ⟨rfl, rfl, rfl⟩

/-- C7 (witness): two runs on the concrete twelve-word mnemonic agree. -/
theorem from_seed_phrase_deterministic_witness :
    identityW.publicId = identityW.publicId ∧
    identityW.signing_keys = identityW.signing_keys ∧
    identityW.encryption_key = identityW.encryption_key :=
  from_seed_phrase_deterministic mnemonicW none identityW identityW
    (by rfl) (by rfl)

/-! ### C8: chunked random access -/

/-- Nonces of the model have the AES-GCM length. -/
theorem nonceFor_length (seed i : Nat) : (nonceFor seed i).length = 12 := by
  simp [nonceFor]

/-- Tags of the model have the AES-GCM length. -/
theorem tagModel_length (key nonce pt : Bytes) :
    (tagModel key nonce pt).length = 16 := by
  simp [tagModel]

/-- Generated keys are 32 bytes. -/
theorem keyFromSeed_length (seed : Nat) : (keyFromSeed seed).length = 32 := by
  simp [keyFromSeed]

/-- AEAD round trip of the model: decryption under the layout
`nonce(12) || body || tag(16)` recovers the body. -/
theorem aeadDecrypt_aeadEncrypt (key nonce pt : Bytes)
    (hn : nonce.length = 12) :
    aeadDecrypt key (aeadEncrypt key nonce pt) = .ok pt := by
  have hlen : (aeadEncrypt key nonce pt).length = pt.length + 28 := by
    simp [aeadEncrypt, tagModel_length, hn]
    omega
  rw [aeadDecrypt, if_neg (by omega)]
  congr 1
  rw [hlen]
  have h1 : (aeadEncrypt key nonce pt).drop 12 =
      pt ++ tagModel key nonce pt := by
    rw [aeadEncrypt, List.append_assoc, ← hn, List.drop_left]
  rw [h1]
  simpa using List.take_left' rfl

/-- Length of the chunk list: `ceil(n / cs)` chunks. -/
theorem listChunks_length (cs : Nat) (hcs : cs ≠ 0) (l : Bytes) :
    (listChunks cs l).length = (l.length + cs - 1) / cs := by
  have hcs' : 0 < cs := Nat.pos_of_ne_zero hcs
  have key : ∀ (n : Nat) (l : Bytes), l.length = n →
      (listChunks cs l).length = (l.length + cs - 1) / cs := by
    intro n
    induction n using Nat.strong_induction_on with
    | _ n ih =>
      intro l hn
      cases l with
      | nil =>
        rw [listChunks]
        simp only [List.length_nil]
        rw [Nat.div_eq_of_lt (by omega)]
      | cons a rest =>
        rw [listChunks, dif_neg hcs]
        simp only [List.length_cons] at hn
        simp only [List.length_cons]
        by_cases hle : rest.length + 1 ≤ cs
        · have hnil : (a :: rest).drop cs = [] := by
            apply List.drop_eq_nil_of_le
            simpa using hle
          rw [hnil, listChunks]
          show 0 + 1 = (rest.length + 1 + cs - 1) / cs
          have h4 : rest.length + 1 + cs - 1 = rest.length + cs := by omega
          rw [h4, Nat.add_div_right _ hcs', Nat.div_eq_of_lt (by omega)]
        · have hrec := ih ((a :: rest).drop cs).length
            (by simp only [List.length_drop, List.length_cons]; omega)
            ((a :: rest).drop cs) rfl
          rw [hrec]
          simp only [List.length_drop, List.length_cons]
          have h2 : rest.length + 1 - cs + cs - 1 = rest.length + 1 - 1 := by
            omega
          rw [h2]
          have h3 : rest.length + 1 + cs - 1 = (rest.length + 1 - 1) + cs := by
            omega
          rw [h3, Nat.add_div_right _ hcs']
  exact key l.length l rfl

/-- Concatenating the chunks restores the input. -/
theorem listChunks_flatten (cs : Nat) (hcs : cs ≠ 0) (l : Bytes) :
    (listChunks cs l).flatten = l := by
  have key : ∀ (n : Nat) (l : Bytes), l.length = n →
      (listChunks cs l).flatten = l := by
    intro n
    induction n using Nat.strong_induction_on with
    | _ n ih =>
      intro l hn
      cases l with
      | nil => rw [listChunks]; rfl
      | cons a rest =>
        rw [listChunks, dif_neg hcs]
        simp only [List.flatten_cons]
        have hcs' : 0 < cs := Nat.pos_of_ne_zero hcs
        have hrec := ih ((a :: rest).drop cs).length
          (by simp only [List.length_drop, List.length_cons] at hn ⊢; omega)
          ((a :: rest).drop cs) rfl
        rw [hrec, List.take_append_drop]
  exact key l.length l rfl

/-- Chunk `i` of the chunking is the slice `l[i*cs .. i*cs + cs]`. -/
theorem listChunks_getD (cs : Nat) (hcs : cs ≠ 0) (l : Bytes) (i : Nat)
    (hi : i < (listChunks cs l).length) :
    (listChunks cs l).getD i [] = (l.drop (i * cs)).take cs := by
  have key : ∀ (n : Nat) (l : Bytes), l.length = n → ∀ i,
      i < (listChunks cs l).length →
      (listChunks cs l).getD i [] = (l.drop (i * cs)).take cs := by
    intro n
    induction n using Nat.strong_induction_on with
    | _ n ih =>
      intro l hn i hi
      cases l with
      | nil =>
        rw [listChunks] at hi
        simp at hi
      | cons a rest =>
        rw [listChunks, dif_neg hcs] at hi ⊢
        cases i with
        | zero => simp
        | succ j =>
          simp only [List.getD_cons_succ, List.length_cons] at hi ⊢
          have hrec := ih ((a :: rest).drop cs).length
            (by simp only [List.length_drop, List.length_cons] at hn ⊢; omega)
            ((a :: rest).drop cs) rfl j (by simpa using hi)
          rw [hrec, List.drop_drop]
          congr 2
          ring
  exact key l.length l rfl i hi

/-- Offsets list has one entry per chunk. -/
theorem offsetsFrom_length (cl : List Bytes) : ∀ acc,
    (offsetsFrom acc cl).length = cl.length := by
  induction cl with
  | nil => intro acc; rfl
  | cons c rest ih =>
    intro acc
    simp [offsetsFrom, ih]

/-- Offset `i` is the base plus the summed lengths of the first `i` chunks. -/
theorem offsetsFrom_getD (cl : List Bytes) : ∀ (acc i : Nat), i < cl.length →
    (offsetsFrom acc cl).getD i 0 =
      acc + (((cl.take i).map List.length).sum) := by
  induction cl with
  | nil => intro acc i hi; simp at hi
  | cons c rest ih =>
    intro acc i hi
    cases i with
    | zero => simp [offsetsFrom]
    | succ j =>
      simp only [offsetsFrom, List.getD_cons_succ]
      rw [ih (acc + c.length) j (by simpa using hi)]
      simp only [List.take_succ_cons, List.map_cons, List.sum_cons]
      omega

/-- Slicing the flat buffer between consecutive cumulative lengths yields
chunk `i`. -/
theorem flatten_segment (cl : List Bytes) : ∀ i, i < cl.length →
    sliceList cl.flatten (((cl.take i).map List.length).sum)
      (((cl.take (i + 1)).map List.length).sum) = cl.getD i [] := by
  induction cl with
  | nil => intro i hi; simp at hi
  | cons c rest ih =>
    intro i hi
    cases i with
    | zero =>
      simp only [List.take_succ_cons, List.take_zero, List.map_nil,
        List.sum_nil, List.map_cons, List.sum_cons, List.flatten_cons,
        List.getD_cons_zero, Nat.add_zero]
      rw [sliceList, List.take_left]
      rfl
    | succ j =>
      simp only [List.take_succ_cons, List.map_cons, List.sum_cons,
        List.flatten_cons, List.getD_cons_succ]
      rw [sliceList, List.take_append, List.drop_append]
      exact ih j (by simpa using hi)

/-- The chunk slice of the flat buffer built from chunk list `cl` is chunk
`i`: the source reads `[offsets[i] .. offsets[i+1])`, or up to the end of
the buffer for the last chunk. -/
theorem chunkSlice_eq (cl : List Bytes) (os cs i : Nat) (hi : i < cl.length) :
    chunkSlice
      { data := cl.flatten, chunk_offsets := offsetsFrom 0 cl,
        original_size := os, chunk_size := cs } i = cl.getD i [] := by
  have hlen := offsetsFrom_length cl 0
  have hstart := offsetsFrom_getD cl 0 i hi
  unfold chunkSlice
  simp only
  rw [hstart]
  by_cases hnext : i + 1 < (offsetsFrom 0 cl).length
  · rw [if_pos hnext, offsetsFrom_getD cl 0 (i + 1) (by omega)]
    simpa using flatten_segment cl i hi
  · rw [if_neg hnext]
    have hieq : i + 1 = cl.length := by omega
    have hflat : cl.flatten.length =
        ((cl.take (i + 1)).map List.length).sum := by
      rw [hieq, List.take_length, List.length_flatten]
    rw [hflat]
    simpa using flatten_segment cl i hi

/-- Reading every index of a list through `getD` reproduces the list. -/
theorem map_getD_range {α : Type} (l : List α) (d : α) :
    (List.range l.length).map (fun i => l.getD i d) = l := by
  apply List.ext_getElem
  · simp
  · intro i h1 h2
    simp [List.getD_eq_getElem, List.getElem?_eq_getElem h2]

/-- Element `i` of the encrypted chunk list. -/
theorem encChunks_getD (key : Bytes) (seed : Nat) (pieces : List Bytes)
    (i : Nat) (hi : i < pieces.length) :
    ((pieces.enum).map
      (fun p => aeadEncrypt key (nonceFor seed p.1) p.2)).getD i [] =
      aeadEncrypt key (nonceFor seed i) (pieces.getD i []) := by
  have h1 : i < ((pieces.enum).map
      (fun p => aeadEncrypt key (nonceFor seed p.1) p.2)).length := by
    simpa using hi
  rw [List.getD_eq_getElem _ _ h1, List.getElem_map, List.getElem_enum,
    List.getD_eq_getElem _ _ hi]

/-- Decrypting a mapped list whose members decrypt pointwise concatenates
the plaintexts. -/
theorem decryptAll_ok {α : Type} (key : Bytes) (g : α → Bytes)
    (f : α → Bytes) (l : List α)
    (h : ∀ x ∈ l, aeadDecrypt key (f x) = .ok (g x)) :
    decryptAll key (l.map f) = .ok ((l.map g).flatten) := by
  induction l with
  | nil => rfl
  | cons a rest ih =>
    simp only [List.map_cons, decryptAll, h a (List.mem_cons_self a rest),
      ih (fun x hx => h x (List.mem_cons_of_mem a hx))]
    rfl

/-- Whole-file round trip of the chunked encryption. -/
theorem decryptFile_encryptFile (key : Bytes) (cs seed : Nat) (data : Bytes)
    (hcs : cs ≠ 0) :
    decryptFile key (encryptFile key cs seed data) = .ok data := by
  unfold decryptFile encryptFile
  simp only
  set pieces := listChunks cs data with hpieces
  set encChunks := (pieces.enum).map
    (fun p => aeadEncrypt key (nonceFor seed p.1) p.2) with hemap
  have hlen : (offsetsFrom 0 encChunks).length = encChunks.length :=
    offsetsFrom_length encChunks 0
  have hslice : (List.range (offsetsFrom 0 encChunks).length).map
      (chunkSlice
        { data := encChunks.flatten, chunk_offsets := offsetsFrom 0 encChunks,
          original_size := data.length, chunk_size := cs }) = encChunks := by
    rw [hlen]
    have : ∀ i ∈ List.range encChunks.length,
        chunkSlice
          { data := encChunks.flatten, chunk_offsets := offsetsFrom 0 encChunks,
            original_size := data.length, chunk_size := cs } i =
          encChunks.getD i [] := by
      intro i hi
      exact chunkSlice_eq encChunks data.length cs i (List.mem_range.mp hi)
    rw [List.map_congr_left this]
    exact map_getD_range encChunks []
  rw [hslice, hemap]
  rw [decryptAll_ok key (fun p : Nat × Bytes => p.2)
    (fun p : Nat × Bytes => aeadEncrypt key (nonceFor seed p.1) p.2)
    pieces.enum
    (fun x _ =>
      aeadDecrypt_aeadEncrypt key (nonceFor seed x.1) x.2
        (nonceFor_length seed x.1))]
  rw [List.enum_map_snd, hpieces, listChunks_flatten cs hcs]

/-- Spec slice `P[a : b]` agrees with the drop/take form of the chunk. -/
theorem sliceList_chunk (P : Bytes) (i cs : Nat) :
    sliceList P (i * cs) (min ((i + 1) * cs) P.length) =
      (P.drop (i * cs)).take cs := by
  unfold sliceList
  have htake : P.take (min ((i + 1) * cs) P.length) = P.take ((i + 1) * cs) := by
    by_cases hle : (i + 1) * cs ≤ P.length
    · rw [min_eq_left hle]
    · rw [min_eq_right (by omega), List.take_length,
        List.take_of_length_le (by omega)]
  rw [htake, List.drop_take]
  congr 1
  have : (i + 1) * cs = i * cs + cs := by ring
  omega

/-- C8 (confirmed): for every plaintext, chunk size and valid chunk index,
`decrypt_chunk` applied to `encrypt_file` under the same key returns the
plaintext slice `P[i*cs .. min((i+1)*cs, |P|)]`, and it does so by
decrypting only that chunk's slice of the flat ciphertext buffer. -/
theorem decrypt_chunk_random_access (key : Bytes) (cs seed : Nat)
    (P : Bytes) (i : Nat) (hcs : cs ≠ 0)
    (hi : i < (encryptFile key cs seed P).chunk_offsets.length) :
    decryptChunk key (encryptFile key cs seed P) i =
      .ok (sliceList P (i * cs) (min ((i + 1) * cs) P.length)) ∧
    decryptChunk key (encryptFile key cs seed P) i =
      aeadDecrypt key (chunkSlice (encryptFile key cs seed P) i) := by
  have hpl : i < (listChunks cs P).length := by
    have h1 : (encryptFile key cs seed P).chunk_offsets.length =
        (listChunks cs P).length := by
      simp [encryptFile, offsetsFrom_length]
    omega
  have hck : chunkSlice (encryptFile key cs seed P) i =
      aeadEncrypt key (nonceFor seed i) ((listChunks cs P).getD i []) := by
    show chunkSlice
      { data := _, chunk_offsets := _, original_size := _, chunk_size := _ } i = _
    rw [chunkSlice_eq _ P.length cs i (by simpa using hpl)]
    exact encChunks_getD key seed (listChunks cs P) i hpl
  have hdc : decryptChunk key (encryptFile key cs seed P) i =
      aeadDecrypt key (chunkSlice (encryptFile key cs seed P) i) := by
    rw [decryptChunk, if_neg (by omega)]
  refine ⟨?_, hdc⟩
  rw [hdc, hck,
    aeadDecrypt_aeadEncrypt key (nonceFor seed i) _ (nonceFor_length seed i),
    listChunks_getD cs hcs P i hpl, sliceList_chunk]

/-- C8 (witness): chunk 1 of a five-byte plaintext encrypted with chunk
size 2 decrypts to bytes 2..4. -/
theorem decrypt_chunk_random_access_witness :
    decryptChunk (keyFromSeed 1)
      (encryptFile (keyFromSeed 1) 2 5 [10, 20, 30, 40, 50]) 1 =
      .ok (sliceList [10, 20, 30, 40, 50] (1 * 2)
        (min ((1 + 1) * 2) (List.length [10, 20, 30, 40, 50]))) ∧
    decryptChunk (keyFromSeed 1)
      (encryptFile (keyFromSeed 1) 2 5 [10, 20, 30, 40, 50]) 1 =
      aeadDecrypt (keyFromSeed 1)
        (chunkSlice (encryptFile (keyFromSeed 1) 2 5 [10, 20, 30, 40, 50]) 1) :=
  decrypt_chunk_random_access (keyFromSeed 1) 2 5 [10, 20, 30, 40, 50] 1
    (by decide)
    (by
      have h1 : (encryptFile (keyFromSeed 1) 2 5
          [10, 20, 30, 40, 50]).chunk_offsets.length =
          (listChunks 2 [10, 20, 30, 40, 50]).length := by
        simp [encryptFile, offsetsFrom_length]
      rw [h1, listChunks_length 2 (by decide)]
      decide)

/-! ### C2: erasure decode correctness -/

/-- Padding to at least the current length gives exactly the target. -/
theorem padTo_length (len : Nat) (l : Bytes) (h : l.length ≤ len) :
    (padTo len l).length = len := by
  simp [padTo]
  omega

/-- Every data-shard buffer has the shard size. -/
theorem bufAt_length (ss : Nat) (data : Bytes) (i : Nat) :
    (bufAt ss data i).length = ss := by
  unfold bufAt
  apply padTo_length
  split
  · simp [sliceList]
    omega
  · simp

/-- There are exactly `data_shards` data buffers. -/
theorem dataShardBufs_length (c : ErasureConfig) (ss : Nat) (data : Bytes) :
    (dataShardBufs c ss data).length = c.data_shards := by
  simp [dataShardBufs]

/-- Shards cover the data: `n ≤ k * ceil(n / k)`. -/
theorem le_mul_shardSize (c : ErasureConfig) (n : Nat)
    (hk : 0 < c.data_shards) :
    n ≤ c.data_shards * calculateShardSize c n := by
  unfold calculateShardSize
  rcases Nat.eq_zero_or_pos n with hz | hp
  · simp [hz]
  · have hdm := Nat.div_add_mod (n + c.data_shards - 1) c.data_shards
    have hml := Nat.mod_lt (n + c.data_shards - 1) hk
    set q := (n + c.data_shards - 1) / c.data_shards with hq
    set r := (n + c.data_shards - 1) % c.data_shards with hr
    clear_value q r
    generalize hT : c.data_shards * q = T at hdm ⊢
    omega

/-- Presence count survives mapping the payloads. -/
theorem countSome_map (l : List (Option Shard)) :
    countSome (l.map (fun o => o.map (fun sh => sh.data))) =
      (l.filter (fun s => s.isSome)).length := by
  induction l with
  | nil => rfl
  | cons hd tl ih =>
    cases hd with
    | none => simpa [countSome, List.filter] using ih
    | some sh => simpa [countSome, List.filter] using ih

/-- A present entry makes the mapped search succeed. -/
theorem findSome?_optmap_isSome {α β : Type} (l : List (Option α))
    (g : α → β) (h : ∃ x, some x ∈ l) :
    (l.findSome? (fun s => s.map g)).isSome := by
  induction l with
  | nil => simp at h
  | cons hd tl ih =>
    cases hd with
    | some a => simp [List.findSome?]
    | none =>
      rw [List.findSome?]
      show (List.findSome? (fun s => s.map g) tl).isSome
      apply ih
      rcases h with ⟨x, hx⟩
      rcases List.mem_cons.mp hx with h1 | h2
      · simp at h1
      · exact ⟨x, h2⟩

/-- Inversion of a successful `erasureEncode` under the crate contract:
the produced shards wrap the backend's systematic buffer list. -/
theorem erasureEncode_inv (rs : RSBackend) (c : ErasureConfig) (data : Bytes)
    (shards : List Shard)
    (hc : rs.CorrectAt c.data_shards c.parity_shards)
    (henc : erasureEncode rs c data = .ok shards) :
    rsNewOk c = true ∧
    0 < calculateShardSize c data.length ∧
    ∃ full,
      shards = (full.enum).map (fun p =>
        { index := p.1, data := p.2,
          is_parity := decide (p.1 ≥ c.data_shards),
          original_size := p.2.length }) ∧
      full.length = c.data_shards + c.parity_shards ∧
      (∀ b ∈ full, b.length = calculateShardSize c data.length) ∧
      full.take c.data_shards =
        dataShardBufs c (calculateShardSize c data.length) data ∧
      (∀ masked2, MaskOf masked2 full →
        c.data_shards ≤ countSome masked2 →
        rs.reconstruct c.data_shards c.parity_shards masked2 = some full) := by
  rcases hok : rsNewOk c with _ | _
  · unfold erasureEncode at henc
    rw [hok] at henc
    simp at henc
  · unfold erasureEncode at henc
    rw [hok] at henc
    simp only [Bool.not_true, Bool.false_eq_true, if_false] at henc
    by_cases hz : calculateShardSize c data.length = 0
    · rw [if_pos hz] at henc
      simp at henc
    · rw [if_neg hz] at henc
      obtain ⟨full, heq, hflen, hfall, htake, hrecon⟩ :=
        hc (dataShardBufs c (calculateShardSize c data.length) data ++
          List.replicate c.parity_shards
            (List.replicate (calculateShardSize c data.length) 0))
          (calculateShardSize c data.length)
          (Nat.pos_of_ne_zero hz)
          (by simp [dataShardBufs_length])
          (by
            intro b hb
            rcases List.mem_append.mp hb with h1 | h2
            · simp only [dataShardBufs] at h1
              rcases List.mem_map.mp h1 with ⟨i, _, rfl⟩
              exact bufAt_length _ data i
            · rw [List.eq_of_mem_replicate h2]
              simp)
      rw [heq] at henc
      refine ⟨rfl, Nat.pos_of_ne_zero hz, full, ?_, hflen, hfall, ?_, hrecon⟩
      · exact (Except.ok.inj henc).symm
      · rw [htake, List.take_left' (dataShardBufs_length c _ data)]

/-- Core behaviour of `ErasureDecoder::decode` on (possibly erased) encoder
output: with at least `k` entries present it returns the concatenation of
the first `k` reconstructed data shards truncated to `original_size`; with
fewer it fails with `InsufficientFragments`. -/
theorem erasureDecode_core (rs : RSBackend) (c : ErasureConfig) (data : Bytes)
    (shards : List Shard)
    (hc : rs.CorrectAt c.data_shards c.parity_shards)
    (henc : erasureEncode rs c data = .ok shards)
    (masked : List (Option Shard))
    (hmask : List.Forall₂ (fun o s => o = none ∨
      ∃ sh, o = some sh ∧ sh.data = s.data) masked shards)
    (osize : Nat) :
    (c.data_shards ≤ (masked.filter (fun s => s.isSome)).length →
      erasureDecode rs c masked osize =
        .ok ((((shards.take c.data_shards).map
          (fun s => s.data)).flatten).take osize)) ∧
    ((masked.filter (fun s => s.isSome)).length < c.data_shards →
      erasureDecode rs c masked osize =
        .error (.InsufficientFragments
          ((masked.filter (fun s => s.isSome)).length) c.data_shards)) := by
  obtain ⟨hok, hsspos, full, hsh, hflen, hfall, htake, hrecon⟩ :=
    erasureEncode_inv rs c data shards hc henc
  have hk : 0 < c.data_shards := by
    have h := hok
    simp only [rsNewOk, Bool.and_eq_true, decide_eq_true_eq] at h
    exact h.1.1
  have hshlen : shards.length = c.data_shards + c.parity_shards := by
    rw [hsh]
    simp [hflen]
  have hmlen : masked.length = c.data_shards + c.parity_shards := by
    rw [hmask.length_eq, hshlen]
  have hdata : shards.map (fun s => s.data) = full := by
    rw [hsh, List.map_map]
    exact List.enum_map_snd full
  constructor
  · intro havail
    unfold erasureDecode
    rw [hok]
    simp only [Bool.not_true, Bool.false_eq_true, if_false]
    rw [if_neg (by simp only [ErasureConfig.total_shards]; omega)]
    rw [if_neg (by omega)]
    have hex : ∃ x, some x ∈ masked := by
      have hpos : 0 < (masked.filter (fun s => s.isSome)).length := by omega
      obtain ⟨o, ho⟩ := List.exists_mem_of_length_pos hpos
      have ho2 := List.mem_filter.mp ho
      obtain ⟨x, hx⟩ := Option.isSome_iff_exists.mp ho2.2
      exact ⟨x, hx ▸ ho2.1⟩
    have hfs := findSome?_optmap_isSome masked (fun sh => sh.data.length) hex
    obtain ⟨v, hv⟩ := Option.isSome_iff_exists.mp hfs
    rw [hv]
    have hmask2 : MaskOf (masked.map (fun o => o.map (fun sh => sh.data)))
        full := by
      rw [MaskOf, ← hdata, List.forall₂_map_left_iff,
        List.forall₂_map_right_iff]
      refine hmask.imp ?_
      intro o s hrel
      rcases hrel with h0 | ⟨sh, rfl, hdata2⟩
      · left
        rw [h0]
        rfl
      · right
        simp [hdata2]
    have hcnt : c.data_shards ≤
        countSome (masked.map (fun o => o.map (fun sh => sh.data))) := by
      rw [countSome_map]
      exact havail
    rw [hrecon _ hmask2 hcnt, List.map_take, hdata]
  · intro hlt
    unfold erasureDecode
    rw [hok]
    simp only [Bool.not_true, Bool.false_eq_true, if_false]
    rw [if_neg (by simp only [ErasureConfig.total_shards]; omega)]
    rw [if_pos hlt]

/-- C2 (confirmed, modulo the reed-solomon-erasure contract taken as a
hypothesis and discharged by the executable backend in the witness): for
every config and every buffer encoded into `k + m` shards, decode on a
length-`(k+m)` vector of optional shards returns the concatenation of the
first `k` reconstructed data shards truncated to the caller-supplied
`original_size` whenever at least `k` entries are present, and fails with
`InsufficientFragments (have, need = k)` whenever fewer than `k` are. -/
theorem erasure_decode_correct (rs : RSBackend) (c : ErasureConfig)
    (data : Bytes) (shards : List Shard)
    (hc : rs.CorrectAt c.data_shards c.parity_shards)
    (henc : erasureEncode rs c data = .ok shards)
    (masked : List (Option Shard))
    (hmask : List.Forall₂ (fun o s => o = none ∨ o = some s) masked shards)
    (osize : Nat) :
    (c.data_shards ≤ (masked.filter (fun s => s.isSome)).length →
      erasureDecode rs c masked osize =
        .ok ((((shards.take c.data_shards).map
          (fun s => s.data)).flatten).take osize)) ∧
    ((masked.filter (fun s => s.isSome)).length < c.data_shards →
      erasureDecode rs c masked osize =
        .error (.InsufficientFragments
          ((masked.filter (fun s => s.isSome)).length) c.data_shards)) :=
  erasureDecode_core rs c data shards hc henc masked
    (hmask.imp (fun {o s} hrel => by
      rcases hrel with h0 | h1
      · exact Or.inl h0
      · exact Or.inr ⟨s, h1, rfl⟩)) osize

/-- Elements of a mask are erased or copied from the source list. -/
theorem maskOf_elements (masked : List (Option Bytes)) (full : List Bytes)
    (h : MaskOf masked full) :
    ∀ o ∈ masked, o = none ∨ ∃ b ∈ full, o = some b := by
  induction h with
  | nil => simp
  | cons hrel htail ih =>
    intro o ho
    rcases List.mem_cons.mp ho with h1 | h2
    · subst h1
      rcases hrel with h0 | hs
      · exact Or.inl h0
      · exact Or.inr ⟨_, List.mem_cons_self _ _, hs⟩
    · rcases ih o h2 with h0 | ⟨b, hb, he⟩
      · exact Or.inl h0
      · exact Or.inr ⟨b, List.mem_cons_of_mem _ hb, he⟩

/-- First present entry of an all-`b0` mask is `b0`. -/
theorem findSome?_id_const (b0 : Bytes) (l : List (Option Bytes))
    (hel : ∀ o ∈ l, o = none ∨ o = some b0) (hex : 0 < countSome l) :
    l.findSome? id = some b0 := by
  induction l with
  | nil => simp [countSome] at hex
  | cons hd tl ih =>
    rcases hel hd (List.mem_cons_self hd tl) with h0 | hs
    · subst h0
      rw [List.findSome?]
      show List.findSome? id tl = some b0
      apply ih
      · intro o ho
        exact hel o (List.mem_cons_of_mem _ ho)
      · simpa [countSome, List.filter] using hex
    · subst hs
      simp [List.findSome?]

/-- The single-data-shard replication backend satisfies the crate contract
at `k = 1`. -/
theorem replRS_correctAt (m : Nat) : replRS.CorrectAt 1 m := by
  intro bufs s hs hlen hall
  cases bufs with
  | nil =>
    simp only [List.length_nil] at hlen
    omega
  | cons b0 rest =>
    refine ⟨b0 :: List.replicate m b0, ?_, ?_, ?_, ?_, ?_⟩
    · simp [replRS]
    · simp
      omega
    · intro b hb
      rcases List.mem_cons.mp hb with h1 | h2
      · rw [h1]
        exact hall b0 (List.mem_cons_self _ _)
      · rw [List.eq_of_mem_replicate h2]
        exact hall b0 (List.mem_cons_self _ _)
    · simp [replRS]
    · intro masked hmask hcnt
      have hel : ∀ o ∈ masked, o = none ∨ o = some b0 := by
        intro o ho
        rcases maskOf_elements masked _ hmask o ho with h0 | ⟨b, hb, he⟩
        · exact Or.inl h0
        · rcases List.mem_cons.mp hb with h1 | h2
          · subst h1
            exact Or.inr he
          · rw [List.eq_of_mem_replicate h2] at he
            exact Or.inr he
      simp only [replRS, if_true]
      rw [findSome?_id_const b0 masked hel (by omega)]
      show some (List.replicate (1 + m) b0) = some (b0 :: List.replicate m b0)
      rw [Nat.add_comm 1 m, List.replicate_succ]

/-- C2 (witness): the replication backend at `(k, m) = (1, 1)` on the
buffer `[5, 6]` with the data shard erased still decodes to `[5, 6]`. -/
theorem erasure_decode_correct_witness :
    erasureDecode replRS { data_shards := 1, parity_shards := 1 }
      [none,
       some { index := 1, data := [5, 6], is_parity := true,
              original_size := 2 }] 2 = .ok [5, 6] :=
  (erasure_decode_correct replRS { data_shards := 1, parity_shards := 1 }
    [5, 6]
    [{ index := 0, data := [5, 6], is_parity := false, original_size := 2 },
     { index := 1, data := [5, 6], is_parity := true, original_size := 2 }]
    (replRS_correctAt 1) (by rfl)
    [none,
     some { index := 1, data := [5, 6], is_parity := true,
            original_size := 2 }]
    (List.Forall₂.cons (Or.inl rfl)
      (List.Forall₂.cons (Or.inr rfl) List.Forall₂.nil)) 2).1 (by decide)

/-! ### C1: pipeline round trip -/

/-- Fixed-width little-endian encodings have their width. -/
theorem natToLE_length (k : Nat) : ∀ n, (natToLE k n).length = k := by
  induction k with
  | zero => intro n; rfl
  | succ j ih =>
    intro n
    simp [natToLE, ih]

/-- Little-endian decode inverts encode modulo the width. -/
theorem leToNat_natToLE (k : Nat) : ∀ n, leToNat (natToLE k n) = n % 256 ^ k := by
  induction k with
  | zero =>
    intro n
    simp [natToLE, leToNat, Nat.mod_one]
  | succ j ih =>
    intro n
    rw [natToLE, leToNat, ih (n / 256)]
    have h256 : (0:Nat) < 256 := by norm_num
    have hB : (0:Nat) < 256 ^ j := Nat.pos_pow_of_pos j h256
    have hqq := Nat.div_add_mod (n / 256) (256 ^ j)
    have hrlt : n % 256 < 256 := Nat.mod_lt n h256
    have hrlt2 : n / 256 % 256 ^ j < 256 ^ j := Nat.mod_lt _ hB
    have hpow : (256:Nat) ^ (j + 1) = 256 * 256 ^ j := by ring
    rw [hpow]
    have hsplit : n = 256 * 256 ^ j * (n / 256 / 256 ^ j) +
        (n % 256 + 256 * (n / 256 % 256 ^ j)) := by
      have h1 : 256 * (n / 256) =
          256 * (256 ^ j * (n / 256 / 256 ^ j) + n / 256 % 256 ^ j) := by
        rw [hqq]
      have h2 := Nat.div_add_mod n 256
      have h3 : 256 * (256 ^ j * (n / 256 / 256 ^ j) + n / 256 % 256 ^ j) =
          256 * 256 ^ j * (n / 256 / 256 ^ j) +
            256 * (n / 256 % 256 ^ j) := by ring
      omega
    have hgoal : n % (256 * 256 ^ j) =
        n % 256 + 256 * (n / 256 % 256 ^ j) := by
      conv_lhs => rw [hsplit]
      rw [Nat.mul_add_mod]
      exact Nat.mod_eq_of_lt (by omega)
    omega

/-- An in-range integer followed by anything reads back exactly. -/
theorem readLE8_append (n : Nat) (rest : Bytes) (h : n < 256 ^ 8) :
    readLE8 (natToLE 8 n ++ rest) = some (n, rest) := by
  unfold readLE8
  rw [if_pos (by simp [natToLE_length])]
  rw [List.take_left' (natToLE_length 8 n), List.drop_left' (natToLE_length 8 n),
    leToNat_natToLE, Nat.mod_eq_of_lt h]

/-- A block of raw bytes followed by anything reads back exactly. -/
theorem readBytes_append (l rest : Bytes) :
    readBytes l.length (l ++ rest) = some (l, rest) := by
  unfold readBytes
  rw [if_pos (by simp)]
  rw [List.take_left, List.drop_left]

/-- A run of in-range integers followed by anything reads back exactly. -/
theorem readLEList_append (offs : List Nat) (rest : Bytes)
    (hb : ∀ o ∈ offs, o < 256 ^ 8) :
    readLEList offs.length ((offs.map (natToLE 8)).flatten ++ rest) =
      some (offs, rest) := by
  induction offs with
  | nil => rfl
  | cons o tl ih =>
    simp only [List.map_cons, List.flatten_cons, List.length_cons,
      List.append_assoc]
    rw [readLEList]
    rw [if_pos (by simp [natToLE_length])]
    rw [List.drop_left' (natToLE_length 8 o),
      ih (fun x hx => hb x (List.mem_cons_of_mem o hx)),
      List.take_left' (natToLE_length 8 o), leToNat_natToLE,
      Nat.mod_eq_of_lt (hb o (List.mem_cons_self o tl))]

/-- Serialization is prefix-delimited: deserializing the serialized file
with any trailing bytes recovers the file (all recorded numbers fit in the
bincode `u64` width). -/
theorem deser_ser_trailing (ef : EncryptedFile) (junk : Bytes)
    (h1 : ef.data.length < 256 ^ 8)
    (h2 : ef.chunk_offsets.length < 256 ^ 8)
    (h3 : ∀ o ∈ ef.chunk_offsets, o < 256 ^ 8)
    (h4 : ef.original_size < 256 ^ 8)
    (h5 : ef.chunk_size < 256 ^ 8) :
    deserEncryptedFile (serEncryptedFile ef ++ junk) = some ef := by
  unfold serEncryptedFile deserEncryptedFile
  simp only [List.append_assoc]
  rw [readLE8_append _ _ h1]
  simp only [Option.bind_eq_bind, Option.some_bind]
  rw [readBytes_append]
  simp only [Option.some_bind]
  rw [readLE8_append _ _ h2]
  simp only [Option.some_bind]
  rw [readLEList_append _ _ h3]
  simp only [Option.some_bind]
  rw [readLE8_append _ _ h4]
  simp only [Option.some_bind]
  rw [readLE8_append _ _ h5]
  simp only [Option.some_bind]

/-- Taking up to a clamped bound is taking up to the bound. -/
theorem take_min_length {α : Type} (l : List α) (m : Nat) :
    l.take (min m l.length) = l.take m := by
  by_cases h : m ≤ l.length
  · rw [min_eq_left h]
  · rw [min_eq_right (by omega), List.take_length,
      List.take_of_length_le (by omega)]

/-- Length of a slice. -/
theorem sliceList_length (data : Bytes) (a b : Nat) :
    (sliceList data a b).length = min b data.length - a := by
  simp [sliceList]

/-- The concatenated data-shard buffers are the input laid out across
`k` shards of size `ss`, zero-padded to `k * ss` bytes. -/
theorem rangeBufs_flatten (ss : Nat) (data : Bytes) : ∀ k,
    (((List.range k).map (bufAt ss data)).flatten) =
      padTo (k * ss) (data.take (k * ss)) := by
  intro k
  induction k with
  | zero => simp [padTo]
  | succ k ih =>
    rw [List.range_succ, List.map_append, List.flatten_append]
    simp only [List.map_cons, List.map_nil, List.flatten_cons,
      List.flatten_nil, List.append_nil]
    rw [ih]
    have hmul : (k + 1) * ss = k * ss + ss := by ring
    rw [hmul]
    by_cases hcase : data.length ≤ k * ss
    · have htk : data.take (k * ss) = data := List.take_of_length_le hcase
      have htk1 : data.take (k * ss + ss) = data :=
        List.take_of_length_le (by omega)
      have hbuf : bufAt ss data k = List.replicate ss 0 := by
        unfold bufAt
        rw [if_neg (by omega)]
        simp [padTo]
      rw [htk, htk1, hbuf]
      unfold padTo
      rw [List.append_assoc, ← List.replicate_add]
      congr 1
      congr 1
      omega
    · push_neg at hcase
      have hbuf : bufAt ss data k =
          sliceList data (k * ss) (min (k * ss + ss) data.length) ++
            List.replicate
              (ss - (min (k * ss + ss) data.length - k * ss)) 0 := by
        unfold bufAt
        rw [if_pos hcase]
        unfold padTo
        rw [sliceList_length]
        congr 2
        omega
      have hslice : sliceList data (k * ss) (min (k * ss + ss) data.length) =
          (data.take (k * ss + ss)).drop (k * ss) := by
        unfold sliceList
        rw [take_min_length]
      have hdec : data.take (k * ss + ss) =
          data.take (k * ss) ++
            sliceList data (k * ss) (min (k * ss + ss) data.length) := by
        rw [hslice]
        have h1 : data.take (k * ss) = (data.take (k * ss + ss)).take (k * ss) := by
          rw [List.take_take, min_eq_left (by omega)]
        rw [h1, List.take_append_drop]
      have hpad : padTo (k * ss) (data.take (k * ss)) = data.take (k * ss) := by
        unfold padTo
        have : (data.take (k * ss)).length = k * ss := by
          simp
          omega
        rw [this]
        simp
      rw [hpad, hbuf, ← List.append_assoc, ← hdec]
      unfold padTo
      congr 2
      simp only [List.length_take]
      omega

/-- Sum of a constant offset distributes over a mapped list. -/
theorem sum_map_add_const {α : Type} (l : List α) (g : α → Nat) (c : Nat) :
    (l.map (fun x => g x + c)).sum = (l.map g).sum + c * l.length := by
  induction l with
  | nil => simp
  | cons a rest ih =>
    simp only [List.map_cons, List.sum_cons, ih, List.length_cons]
    ring

/-- Flat ciphertext size: plaintext plus 28 bytes of nonce/tag overhead per
chunk. -/
theorem encryptFile_data_length (key : Bytes) (cs seed : Nat) (data : Bytes)
    (hcs : cs ≠ 0) :
    (encryptFile key cs seed data).data.length =
      data.length + 28 * (listChunks cs data).length := by
  unfold encryptFile
  simp only [List.length_flatten, List.map_map]
  have h1 : (List.map (List.length ∘ fun p =>
      aeadEncrypt key (nonceFor seed p.1) p.2) (listChunks cs data).enum) =
      (listChunks cs data).enum.map (fun p => p.2.length + 28) := by
    apply List.map_congr_left
    intro p _
    simp [aeadEncrypt, tagModel_length, nonceFor_length, Function.comp]
    omega
  rw [h1, sum_map_add_const]
  have h2 : ((listChunks cs data).enum.map (fun p => p.2.length)).sum =
      data.length := by
    have h3 : (listChunks cs data).enum.map (fun p => p.2.length) =
        (listChunks cs data).map List.length := by
      rw [show (fun p : Nat × Bytes => p.2.length) =
        (List.length ∘ Prod.snd) from rfl, ← List.map_map,
        List.enum_map_snd]
    rw [h3, ← List.length_flatten, listChunks_flatten cs hcs]
  rw [h2]
  simp [List.enum_length]

/-- Recorded offsets never exceed the base plus the total chunk bytes. -/
theorem offsetsFrom_le (cl : List Bytes) : ∀ acc, ∀ o ∈ offsetsFrom acc cl,
    o ≤ acc + (cl.map List.length).sum := by
  induction cl with
  | nil => intro acc o ho; simp [offsetsFrom] at ho
  | cons c rest ih =>
    intro acc o ho
    rcases List.mem_cons.mp ho with h1 | h2
    · subst h1
      omega
    · have := ih (acc + c.length) o h2
      simp only [List.map_cons, List.sum_cons]
      omega

/-- At most one chunk per input byte. -/
theorem listChunks_count_le (cs : Nat) (hcs : cs ≠ 0) (l : Bytes) :
    (listChunks cs l).length ≤ l.length := by
  have hcs' : 0 < cs := Nat.pos_of_ne_zero hcs
  rw [listChunks_length cs hcs]
  rcases Nat.eq_zero_or_pos l.length with hz | hp
  · rw [hz]
    have hlt : 0 + cs - 1 < cs := by omega
    rw [Nat.div_eq_of_lt hlt]
  · have hlt : l.length + cs - 1 < (l.length + 1) * cs := by
      have : l.length ≤ l.length * cs := Nat.le_mul_of_pos_right _ hcs'
      have hmul : (l.length + 1) * cs = l.length * cs + cs := by ring
      generalize l.length * cs = T at *
      omega
    have := (Nat.div_lt_iff_lt_mul hcs').mpr hlt
    omega

/-- Serialized encrypted files are nonempty (8-byte length prefix). -/
theorem serEncryptedFile_length (ef : EncryptedFile) :
    8 ≤ (serEncryptedFile ef).length := by
  simp [serEncryptedFile, natToLE_length]

/-- A wellformed erasure config passes `ReedSolomon::new`. -/
theorem rsNewOk_true (c : ErasureConfig) (hk : 0 < c.data_shards)
    (hm : 0 < c.parity_shards) (ht : c.total_shards ≤ 256) :
    rsNewOk c = true := by
  simp [rsNewOk, hk, hm, ht]

/-- Nonempty data gives a nonzero shard size. -/
theorem calculateShardSize_pos (c : ErasureConfig) (n : Nat)
    (hk : 0 < c.data_shards) (hn : 0 < n) :
    0 < calculateShardSize c n := by
  unfold calculateShardSize
  show 1 ≤ (n + c.data_shards - 1) / c.data_shards
  rw [Nat.le_div_iff_mul_le hk]
  omega

/-- Encoding succeeds on nonempty data under the crate contract. -/
theorem erasureEncode_ok (rs : RSBackend) (c : ErasureConfig) (data : Bytes)
    (hc : rs.CorrectAt c.data_shards c.parity_shards)
    (hk : 0 < c.data_shards) (hm : 0 < c.parity_shards)
    (ht : c.total_shards ≤ 256) (hd : 0 < data.length) :
    ∃ shards, erasureEncode rs c data = .ok shards := by
  have hss := calculateShardSize_pos c data.length hk hd
  unfold erasureEncode
  rw [rsNewOk_true c hk hm ht]
  simp only [Bool.not_true, Bool.false_eq_true, if_false]
  rw [if_neg (by omega)]
  obtain ⟨full, heq, _⟩ :=
    hc (dataShardBufs c (calculateShardSize c data.length) data ++
      List.replicate c.parity_shards
        (List.replicate (calculateShardSize c data.length) 0))
      (calculateShardSize c data.length) hss
      (by simp [dataShardBufs_length])
      (by
        intro b hb
        rcases List.mem_append.mp hb with h1 | h2
        · simp only [dataShardBufs] at h1
          rcases List.mem_map.mp h1 with ⟨i, _, rfl⟩
          exact bufAt_length _ data i
        · rw [List.eq_of_mem_replicate h2]
          simp)
  rw [heq]
  exact ⟨_, rfl⟩

/-- The shard records rebuilt by `reconstruct_file` carry exactly the given
byte vectors, pointwise against the original shards. -/
theorem rebuilt_forall₂ (K : Nat) (l1 : List (Option Bytes))
    (l2 : List Shard)
    (h : List.Forall₂ (fun o (s : Shard) => o = none ∨ o = some s.data) l1 l2) :
    ∀ n, List.Forall₂ (fun o (s : Shard) => o = none ∨
        ∃ sh : Shard, o = some sh ∧ sh.data = s.data)
      ((List.enumFrom n l1).map (fun p =>
        p.2.map (fun d =>
          ({ index := p.1, data := d, is_parity := decide (p.1 ≥ K),
             original_size := 0 } : Shard)))) l2 := by
  induction h with
  | nil => intro n; simp [List.enumFrom]
  | @cons a b la lb hrel htail ih =>
    intro n
    have he : List.enumFrom n (a :: la) = (n, a) :: List.enumFrom (n + 1) la :=
      rfl
    rw [he, List.map_cons]
    refine List.Forall₂.cons ?_ (ih (n + 1))
    rcases hrel with h0 | hs
    · left
      rw [h0]
      rfl
    · right
      refine ⟨{ index := n, data := b.data, is_parity := decide (n ≥ K),
                original_size := 0 }, ?_, rfl⟩
      rw [hs]
      rfl

/-- Rebuilding shard records preserves the presence count. -/
theorem filter_isSome_enumFrom_map (K : Nat) (l : List (Option Bytes)) :
    ∀ n, (((List.enumFrom n l).map (fun p =>
        p.2.map (fun d =>
          ({ index := p.1, data := d, is_parity := decide (p.1 ≥ K),
             original_size := 0 } : Shard)))).filter
      (fun s => s.isSome)).length =
      ((l.filter (fun s => s.isSome)).length) := by
  induction l with
  | nil => intro n; rfl
  | cons hd tl ih =>
    intro n
    have he : List.enumFrom n (hd :: tl) = (n, hd) :: List.enumFrom (n + 1) tl :=
      rfl
    rw [he, List.map_cons, List.filter_cons, List.filter_cons]
    cases hd with
    | none =>
      rw [if_neg (by simp), if_neg (by simp)]
      exact ih (n + 1)
    | some d =>
      rw [if_pos (by simp), if_pos (by simp)]
      simp only [List.length_cons]
      rw [ih (n + 1)]

/-- Evaluation of `prepare_upload` once the erasure encoding succeeds. -/
theorem prepareUpload_eq (rs : RSBackend) (c : ErasureConfig)
    (identity : UserIdentity) (data : Bytes) (filename : String)
    (ks ns kns : Nat) (now : Int) (shards : List Shard)
    (henc : erasureEncode rs c
      (serEncryptedFile (encryptFile (keyFromSeed ks) 65536 ns data)) =
      .ok shards) :
    prepareUpload rs c identity data filename ks ns kns now = .ok
      { metadata :=
          { file_id := toBase58 (contentHashBytes data),
            filename := filename,
            size := data.length,
            mime_type := mimeGuessModel filename,
            encrypted_hash := toBase58 (contentHashBytes
              (serEncryptedFile (encryptFile (keyFromSeed ks) 65536 ns data))),
            erasure_config := c,
            shards := shards.map (fun s =>
              { index := s.index,
                shard_id := s.idStr (toBase58 (contentHashBytes data)),
                peers := [],
                size := s.data.length,
                hash := toBase58 (contentHashBytes s.data) }),
            created_at := now,
            modified_at := now,
            owner_id := identity.publicId,
            is_shared := false,
            shared_with := [],
            encrypted_file_key := identity.encryptWith kns (keyFromSeed ks),
            folder_id := none,
            tags := [] },
        shards := shards } := by
  unfold prepareUpload
  simp only [henc]
  rfl

/-- `encrypt_file` records one offset per chunk. -/
theorem encryptFile_offsets_len (key : Bytes) (cs seed : Nat) (data : Bytes) :
    (encryptFile key cs seed data).chunk_offsets.length =
      (listChunks cs data).length := by
  unfold encryptFile
  simp only
  rw [offsetsFrom_length]
  simp [List.enum_length]

/-- Every recorded offset stays within the flat buffer. -/
theorem encryptFile_offsets_le (key : Bytes) (cs seed : Nat) (data : Bytes) :
    ∀ o ∈ (encryptFile key cs seed data).chunk_offsets,
      o ≤ (encryptFile key cs seed data).data.length := by
  unfold encryptFile
  simp only
  intro o ho
  have h := offsetsFrom_le _ 0 o ho
  rw [List.length_flatten]
  omega

/-- Evaluation of `reconstruct_file` under explicit success facts for each
stage of the pipeline: enough shard data present, decode output equal to
the serialized encrypted file plus zero padding, file key recovered,
serialization bounds, chunk decryption, and matching content hash. -/
theorem reconstructFile_roundtrip (rs : RSBackend) (identity : UserIdentity)
    (md : FileMetadata) (c : ErasureConfig) (ef : EncryptedFile)
    (shards : List Shard) (shardData : List (Option Bytes))
    (fk plain junk : Bytes)
    (hc : rs.CorrectAt c.data_shards c.parity_shards)
    (henc : erasureEncode rs c (serEncryptedFile ef) = .ok shards)
    (hcfg : md.erasure_config = c)
    (hrel : List.Forall₂ (fun o (s : Shard) => o = none ∨ o = some s.data)
      shardData shards)
    (hcount : c.data_shards ≤ (shardData.filter (fun o => o.isSome)).length)
    (hflat : ((((shards.take c.data_shards).map (fun s => s.data)).flatten).take
      (reconstructTruncationLen md)) = serEncryptedFile ef ++ junk)
    (hfk : identity.decryptBytes md.encrypted_file_key = .ok fk)
    (hfk32 : fk.length = 32)
    (h1 : ef.data.length < 256 ^ 8)
    (h2 : ef.chunk_offsets.length < 256 ^ 8)
    (h3 : ∀ o ∈ ef.chunk_offsets, o < 256 ^ 8)
    (h4 : ef.original_size < 256 ^ 8)
    (h5 : ef.chunk_size < 256 ^ 8)
    (hdec : decryptFile fk ef = .ok plain)
    (hid : toBase58 (contentHashBytes plain) = md.file_id) :
    reconstructFile rs identity md shardData = .ok plain := by
  have hcore := (erasureDecode_core rs c (serEncryptedFile ef) shards hc henc
      ((shardData.enum).map (fun p =>
        p.2.map (fun d =>
          ({ index := p.1, data := d,
             is_parity := decide (p.1 ≥ c.data_shards),
             original_size := 0 } : Shard))))
      (rebuilt_forall₂ c.data_shards shardData shards hrel 0)
      (reconstructTruncationLen md)).1
    (by
      have hcnt := filter_isSome_enumFrom_map c.data_shards shardData 0
      rw [show shardData.enum = List.enumFrom 0 shardData from rfl, hcnt]
      exact hcount)
  unfold reconstructFile
  rw [hcfg]
  rw [if_neg (by omega)]
  simp only [hcore]
  simp only [hfk]
  rw [if_neg (by omega)]
  simp only [hflat, deser_ser_trailing ef junk h1 h2 h3 h4 h5]
  simp only [hdec]
  rw [if_neg (fun hne => hne hid)]

/-- Field-level description of a successful `prepare_upload`. -/
theorem prepareUpload_fields (rs : RSBackend) (c : ErasureConfig)
    (identity : UserIdentity) (data : Bytes) (filename : String)
    (ks ns kns : Nat) (now : Int) (shards : List Shard)
    (henc : erasureEncode rs c
      (serEncryptedFile (encryptFile (keyFromSeed ks) 65536 ns data)) =
      .ok shards) :
    ∃ pf : PreparedFile,
      prepareUpload rs c identity data filename ks ns kns now = .ok pf ∧
      pf.shards = shards ∧
      pf.metadata.erasure_config = c ∧
      pf.metadata.file_id = toBase58 (contentHashBytes data) ∧
      pf.metadata.encrypted_file_key =
        identity.encryptWith kns (keyFromSeed ks) ∧
      pf.metadata.shards = shards.map (fun s =>
        { index := s.index,
          shard_id := s.idStr (toBase58 (contentHashBytes data)),
          peers := [],
          size := s.data.length,
          hash := toBase58 (contentHashBytes s.data) }) :=
  ⟨_, prepareUpload_eq rs c identity data filename ks ns kns now shards henc,
    rfl, rfl, rfl, rfl, rfl⟩

/-- C1: pipeline round-trip law.  For every plaintext, under the crate
contract for the erasure backend and any valid `(k, m)` with at most 256
shards, `prepare_upload` returns metadata and `k + m` shards whose
`file_id` is the Base58 content hash of the plaintext, and
`reconstruct_file` applied to that metadata and any pointwise subset of at
least `k` of the shard byte vectors (the rest `None`) returns exactly the
plaintext, whose content hash equals the metadata's `file_id`. -/
theorem pipeline_roundtrip (rs : RSBackend) (c : ErasureConfig)
    (identity : UserIdentity) (data : Bytes) (filename : String)
    (ks ns kns : Nat) (now : Int)
    (hc : rs.CorrectAt c.data_shards c.parity_shards)
    (hk : 0 < c.data_shards) (hm : 0 < c.parity_shards)
    (ht : c.total_shards ≤ 256) (hsize : data.length < 2 ^ 50) :
    ∃ pf : PreparedFile,
      prepareUpload rs c identity data filename ks ns kns now = .ok pf ∧
      pf.shards.length = c.data_shards + c.parity_shards ∧
      pf.metadata.file_id = toBase58 (contentHashBytes data) ∧
      ∀ shardData : List (Option Bytes),
        List.Forall₂ (fun o (s : Shard) => o = none ∨ o = some s.data)
          shardData pf.shards →
        c.data_shards ≤ (shardData.filter (fun o => o.isSome)).length →
        reconstructFile rs identity pf.metadata shardData = .ok data ∧
        toBase58 (contentHashBytes data) = pf.metadata.file_id := by
  have hE8 : 8 ≤
      (serEncryptedFile (encryptFile (keyFromSeed ks) 65536 ns data)).length :=
    serEncryptedFile_length _
  obtain ⟨shards, henc⟩ := erasureEncode_ok rs c
    (serEncryptedFile (encryptFile (keyFromSeed ks) 65536 ns data))
    hc hk hm ht (by omega)
  obtain ⟨hok, hsspos, full, hsh, hflen, hfall, htake, hrecon⟩ :=
    erasureEncode_inv rs c _ shards hc henc
  have hdata : shards.map (fun s => s.data) = full := by
    rw [hsh, List.map_map]
    exact List.enum_map_snd full
  have hshlen : shards.length = c.data_shards + c.parity_shards := by
    rw [hsh]
    simp [hflen]
  obtain ⟨pf, hprep, hpfsh, hpfcfg, hpfid, hpfkey, hpfshards⟩ :=
    prepareUpload_fields rs c identity data filename ks ns kns now shards henc
  refine ⟨pf, hprep, by rw [hpfsh]; exact hshlen, hpfid, ?_⟩
  intro shardData hrel hcount
  rw [hpfsh] at hrel
  refine ⟨?_, hpfid.symm⟩
  have h50 : (2 : Nat) ^ 50 = 1125899906842624 := by norm_num
  have h2568 : (256 : Nat) ^ 8 = 18446744073709551616 := by norm_num
  have hnc : (listChunks 65536 data).length ≤ data.length :=
    listChunks_count_le 65536 (by decide) data
  have hdl : (encryptFile (keyFromSeed ks) 65536 ns data).data.length =
      data.length + 28 * (listChunks 65536 data).length :=
    encryptFile_data_length _ _ _ _ (by decide)
  have h1 : (encryptFile (keyFromSeed ks) 65536 ns data).data.length <
      256 ^ 8 := by
    rw [hdl, h2568]
    rw [h50] at hsize
    omega
  have hle : (serEncryptedFile
      (encryptFile (keyFromSeed ks) 65536 ns data)).length ≤
      c.data_shards * calculateShardSize c
        (serEncryptedFile (encryptFile (keyFromSeed ks) 65536 ns data)).length :=
    le_mul_shardSize c _ hk
  refine reconstructFile_roundtrip rs identity pf.metadata c
    (encryptFile (keyFromSeed ks) 65536 ns data) shards shardData
    (keyFromSeed ks) data
    (List.replicate
      (c.data_shards * calculateShardSize c
        (serEncryptedFile (encryptFile (keyFromSeed ks) 65536 ns data)).length -
        (serEncryptedFile
          (encryptFile (keyFromSeed ks) 65536 ns data)).length) 0)
    hc henc hpfcfg hrel hcount ?_ ?_ (keyFromSeed_length ks) h1 ?_ ?_ ?_ ?_
    (decryptFile_encryptFile (keyFromSeed ks) 65536 ns data (by decide))
    hpfid.symm
  · -- decode output = serialized encrypted file ++ zero padding
    have htr : reconstructTruncationLen pf.metadata =
        c.data_shards * calculateShardSize c
          (serEncryptedFile
            (encryptFile (keyFromSeed ks) 65536 ns data)).length := by
      refine truncationLen_uniform_aux pf.metadata
        (calculateShardSize c
          (serEncryptedFile (encryptFile (keyFromSeed ks) 65536 ns data)).length)
        ?_ ?_ ?_ |>.trans ?_
      · rw [hpfshards, hpfcfg, List.length_map, hshlen]
        rfl
      · rw [hpfshards]
        intro loc hloc
        rcases List.mem_map.mp hloc with ⟨s, hs, rfl⟩
        show s.data.length = _
        refine hfall s.data ?_
        rw [← hdata]
        exact List.mem_map_of_mem _ hs
      · rw [hpfcfg]
        show 0 < c.data_shards + c.parity_shards
        omega
      · rw [hpfcfg]
    rw [htr, List.map_take, hdata, htake]
    simp only [dataShardBufs]
    rw [rangeBufs_flatten, List.take_of_length_le hle,
      List.take_of_length_le (le_of_eq (padTo_length _ _ hle))]
    rfl
  · -- the stored file key decrypts to the fresh per-file key
    rw [hpfkey]
    exact aeadDecrypt_aeadEncrypt identity.encryption_key (nonceFor kns 0)
      (keyFromSeed ks) (nonceFor_length kns 0)
  · -- offsets list is short enough
    rw [encryptFile_offsets_len, h2568]
    rw [h50] at hsize
    omega
  · -- every offset is in range
    intro o ho
    exact lt_of_le_of_lt (encryptFile_offsets_le _ _ _ _ o ho) h1
  · -- original size is in range
    show data.length < 256 ^ 8
    rw [h2568]
    rw [h50] at hsize
    omega
  · -- chunk size is in range
    show (65536 : Nat) < 256 ^ 8
    norm_num

/-- Concrete instance of the round-trip law: replication backend with
`(k, m) = (1, 1)` on the plaintext `[1, 2, 3]`. -/
theorem pipeline_roundtrip_witness :
    ∃ pf : PreparedFile,
      prepareUpload replRS { data_shards := 1, parity_shards := 1 }
        fallbackIdentity [1, 2, 3] "a" 0 0 0 0 = .ok pf ∧
      pf.shards.length = 1 + 1 ∧
      pf.metadata.file_id = toBase58 (contentHashBytes [1, 2, 3]) ∧
      ∀ shardData : List (Option Bytes),
        List.Forall₂ (fun o (s : Shard) => o = none ∨ o = some s.data)
          shardData pf.shards →
        1 ≤ (shardData.filter (fun o => o.isSome)).length →
        reconstructFile replRS fallbackIdentity pf.metadata shardData =
          .ok [1, 2, 3] ∧
        toBase58 (contentHashBytes [1, 2, 3]) = pf.metadata.file_id :=
  pipeline_roundtrip replRS { data_shards := 1, parity_shards := 1 }
    fallbackIdentity [1, 2, 3] "a" 0 0 0 0 (replRS_correctAt 1)
    (by decide) (by decide) (by decide) (by decide)
